import Mathlib

/-!
Verification of the JSONL schema-inference and flattening engine
(`jsonl_analyzer.py`): a shallow embedding of its data model and
operations, with theorems settling the specified properties.

Decoded JSON values are represented by the mutually inductive types
`JVal` / `JList` / `JFields` (a tagged variant mirroring Python's
decoded objects: dicts are insertion-ordered association sequences).
The engine's functions (`process_item`, `create_table`, `flatten_json`,
the two passes of `process_jsonl`, and the driver `main`) are embedded
as executable Lean functions keeping the source's names.  `json.loads`
and `json.dumps` are embedded following Python's `json` module
behaviour (strict decoding, `ensure_ascii` text with ", " / ": "
separators), and the loading pass's `csv.reader` line splitting is
embedded by `firstCsvField`.
-/

set_option maxHeartbeats 1000000
set_option maxRecDepth 4096
set_option linter.unnecessarySeqFocus false

mutual

/-- Decoded JSON values: the tagged variant produced by `json.loads`.
Floats carry their literal text (only their serialization and their
Python type name are ever consumed by the engine). -/
inductive JVal where
  | jnull : JVal
  | jbool (b : Bool) : JVal
  | jint (n : Int) : JVal
  | jfloat (lit : String) : JVal
  | jstr (s : String) : JVal
  | jarr (es : JList) : JVal
  | jobj (fs : JFields) : JVal

inductive JList where
  | nil : JList
  | cons (v : JVal) (rest : JList) : JList

inductive JFields where
  | fnil : JFields
  | fcons (k : String) (v : JVal) (rest : JFields) : JFields

end

/-- Python `type(value).__name__` for decoded JSON values. -/
def typeName : JVal → String
  | .jnull => "NoneType"
  | .jbool _ => "bool"
  | .jint _ => "int"
  | .jfloat _ => "float"
  | .jstr _ => "str"
  | .jarr _ => "list"
  | .jobj _ => "dict"

/-- The depth guard `max_depth is not None and current_depth > max_depth`. -/
def stopAt (md : Option Nat) (depth : Nat) : Bool :=
  match md with
  | none => false
  | some d => depth > d

/-- Python `s.rstrip('.')`: remove every trailing path separator. -/
def rstripDots (s : String) : String :=
  String.mk (((s.toList.reverse).dropWhile (fun c => c = '.')).reverse)

/-- The inferred schema: a mapping from flattened path to the list of
distinct observed kind names, in insertion order (Python
`defaultdict(set)` with paths in first-discovery order). -/
abbrev Schema := List (String × List String)

/-- `schema[full_key].add(kind)`: record one observed kind at a path,
creating the path's entry on first access. -/
def schemaAdd (s : Schema) (path kind : String) : Schema :=
  if s.any (fun p => p.1 = path) then
    s.map (fun p =>
      if p.1 = path then
        (p.1, if p.2.contains kind then p.2 else p.2 ++ [kind])
      else p)
  else
    s ++ [(path, [kind])]

/-- A flattened record: mapping from path to scalar storage value, in
insertion order (a Python dict). -/
abbrev FlatRec := List (String × JVal)

/-- Python `d[k] = v` on an insertion-ordered dict: replace in place if
the key exists, else append. -/
def dictSet (m : FlatRec) (k : String) (v : JVal) : FlatRec :=
  if m.any (fun p => p.1 = k) then
    m.map (fun p => if p.1 = k then (p.1, v) else p)
  else
    m ++ [(k, v)]

/-- Python `d.update(other)`: fold `dictSet` over the other dict's
entries in order. -/
def dictUpdate (m : FlatRec) (adds : FlatRec) : FlatRec :=
  adds.foldl (fun acc kv => dictSet acc kv.1 kv.2) m

/-- The keys of an association sequence, in order. -/
def keysOf (m : List (String × α)) : List String :=
  m.map (fun p => p.1)

/-- Python dict insertion for the JSON decoder: last value wins, first
position kept. -/
def fieldsSet : JFields → String → JVal → JFields
  | .fnil, k, v => .fcons k v .fnil
  | .fcons k1 v1 rest, k, v =>
    if k1 = k then .fcons k1 v rest else .fcons k1 v1 (fieldsSet rest k v)

/-- Build a `JList` from a Lean list. -/
def JList.ofList : List JVal → JList
  | [] => .nil
  | v :: rest => .cons v (JList.ofList rest)

/-- Hexadecimal digit for `\uXXXX` escapes. -/
def hexDigit (n : Nat) : Char :=
  if n < 10 then Char.ofNat (48 + n) else Char.ofNat (87 + n)

/-- Four-digit lowercase hex, as produced by Python's JSON encoder. -/
def hex4 (n : Nat) : List Char :=
  [hexDigit (n / 4096 % 16), hexDigit (n / 256 % 16),
   hexDigit (n / 16 % 16), hexDigit (n % 16)]

/-- Escape one character as Python `json.dumps` does with
`ensure_ascii=True`: printable ASCII passes through, the short escapes
cover the usual control characters, everything else becomes `\uXXXX`
(with a surrogate pair above the BMP). -/
def escChar (c : Char) : List Char :=
  if c = '"' then ['\\', '"']
  else if c = '\\' then ['\\', '\\']
  else if c = '\n' then ['\\', 'n']
  else if c = '\r' then ['\\', 'r']
  else if c = '\t' then ['\\', 't']
  else if c = '\x08' then ['\\', 'b']
  else if c = '\x0c' then ['\\', 'f']
  else if 32 ≤ c.toNat ∧ c.toNat ≤ 126 then [c]
  else if c.toNat < 65536 then '\\' :: 'u' :: hex4 c.toNat
  else
    let n := c.toNat - 65536
    ('\\' :: 'u' :: hex4 (55296 + n / 1024)) ++ ('\\' :: 'u' :: hex4 (56320 + n % 1024))

/-- Python `json.dumps` of a string value. -/
def dumpStr (s : String) : String :=
  String.mk ('"' :: (s.toList.foldr (fun c acc => escChar c ++ acc) ['"']))

mutual

/-- Python `json.dumps(value)` with default arguments: item separator
`", "`, key separator `": "`, `ensure_ascii` string escaping. -/
def jsonDumps : JVal → String
  | .jnull => "null"
  | .jbool true => "true"
  | .jbool false => "false"
  | .jint n => toString n
  | .jfloat lit => lit
  | .jstr s => dumpStr s
  | .jarr es => "[" ++ dumpsList es ++ "]"
  | .jobj fs => "\x7b" ++ dumpsFields fs ++ "\x7d"

/-- Comma-space separated serializations of array elements. -/
def dumpsList : JList → String
  | .nil => ""
  | .cons v .nil => jsonDumps v
  | .cons v rest => jsonDumps v ++ ", " ++ dumpsList rest

/-- Comma-space separated `"key": value` serializations of object members. -/
def dumpsFields : JFields → String
  | .fnil => ""
  | .fcons k v .fnil => dumpStr k ++ ": " ++ jsonDumps v
  | .fcons k v rest => dumpStr k ++ ": " ++ jsonDumps v ++ ", " ++ dumpsFields rest

end

/-- Python `json.dumps(flattened)` for a flattened record (a dict whose
values are scalars or strings). -/
def dumpsFlat (m : FlatRec) : String :=
  "\x7b" ++ String.intercalate ", " (m.map (fun kv => dumpStr kv.1 ++ ": " ++ jsonDumps kv.2)) ++ "\x7d"

mutual

/-- The `for key, value in item.items()` loop of `process_item`
(`infer_schema`, lines 19-29): dispatch each field's value, threading
the schema accumulator. -/
def processLoop (md : Option Nat) : JFields → String → Nat → Schema → Schema
  | .fnil, _, _, s => s
  | .fcons k v rest, pfx, depth, s =>
    processLoop md rest pfx depth (processValue md v (pfx ++ k) depth s)

/-- One field's dispatch inside `process_item`: recurse into dicts (the
recursive call's entry depth guard is inlined here), recurse into the
first element of an array when it is a dict, otherwise record kind
`array` for an array and `type(value).__name__` for a scalar. -/
def processValue (md : Option Nat) : JVal → String → Nat → Schema → Schema
  | .jobj fs, fullKey, depth, s =>
    if stopAt md (depth + 1) then s
    else processLoop md fs (fullKey ++ ".") (depth + 1) s
  | .jarr (.cons (.jobj fs) _), fullKey, depth, s =>
    if stopAt md (depth + 1) then s
    else processLoop md fs (fullKey ++ ".") (depth + 1) s
  | .jarr _, fullKey, _, s => schemaAdd s fullKey "array"
  | v, fullKey, _, s => schemaAdd s fullKey (typeName v)

end

/-- `process_item(item, prefix, current_depth)` of `infer_schema`
(lines 16-29): return immediately past the depth limit, else walk the
object's fields. -/
def processItem (md : Option Nat) (fs : JFields) (pfx : String) (depth : Nat) (s : Schema) : Schema :=
  if stopAt md depth then s else processLoop md fs pfx depth s

mutual

/-- The `for key, value in data.items()` loop of `flatten_json`
(`process_jsonl`, lines 72-79), threading the `items` accumulator. -/
def flattenLoop (md : Option Nat) : JFields → String → Nat → FlatRec → FlatRec
  | .fnil, _, _, acc => acc
  | .fcons k v rest, pfx, depth, acc =>
    flattenLoop md rest pfx depth (flattenValue md v (pfx ++ k) depth acc)

/-- One field's dispatch inside `flatten_json`: `items.update` with the
recursive flattening of a dict (the recursive call's entry depth guard
is inlined: past the limit it yields the single serialized entry under
the dot-stripped prefix), serialize an array whole, copy a scalar. -/
def flattenValue (md : Option Nat) : JVal → String → Nat → FlatRec → FlatRec
  | .jobj fs, newKey, depth, acc =>
    dictUpdate acc
      (if stopAt md (depth + 1) then
        [(rstripDots (newKey ++ "."), .jstr (jsonDumps (.jobj fs)))]
      else flattenLoop md fs (newKey ++ ".") (depth + 1) [])
  | .jarr es, newKey, _, acc => dictSet acc newKey (.jstr (jsonDumps (.jarr es)))
  | v, newKey, _, acc => dictSet acc newKey v

end

/-- `flatten_json(data, prefix, current_depth)` of `process_jsonl`
(lines 68-80): past the depth limit, one entry mapping the
dot-stripped prefix to `json.dumps(data)`; otherwise walk the fields
starting from the empty `items` dict. -/
def flattenJson (md : Option Nat) (fs : JFields) (pfx : String) (depth : Nat) : FlatRec :=
  if stopAt md depth then [(rstripDots pfx, .jstr (jsonDumps (.jobj fs)))]
  else flattenLoop md fs pfx depth []

/-- The fixed kind-to-SQL-type table of `create_table` (lines 48-58):
a single observed kind maps through the table (default `VARCHAR`), a
conflict maps to `VARCHAR` unconditionally. -/
def sqlTypeOf (types : List String) : String :=
  if types.length = 1 then
    match types.head? with
    | some "str" => "VARCHAR"
    | some "int" => "INTEGER"
    | some "float" => "FLOAT"
    | some "bool" => "BOOLEAN"
    | some "NoneType" => "VARCHAR"
    | some "array" => "VARCHAR"
    | _ => "VARCHAR"
  else "VARCHAR"

/-- The column list built by `create_table` (lines 45-59): one
`(field, storage type)` pair per schema path, in schema order. -/
def createColumns (schema : Schema) : List (String × String) :=
  schema.map (fun p => (p.1, sqlTypeOf p.2))

/-- JSON whitespace skipping (space, tab, newline, carriage return). -/
def skipWs : List Char → List Char
  | c :: cs => if c = ' ' ∨ c = '\t' ∨ c = '\n' ∨ c = '\r' then skipWs cs else c :: cs
  | [] => []

/-- Value of a hexadecimal digit. -/
def hexVal (c : Char) : Option Nat :=
  if '0' ≤ c ∧ c ≤ '9' then some (c.toNat - 48)
  else if 'a' ≤ c ∧ c ≤ 'f' then some (c.toNat - 87)
  else if 'A' ≤ c ∧ c ≤ 'F' then some (c.toNat - 55)
  else none

/-- Body of a JSON string literal after the opening quote, per Python's
strict decoder: the short escapes, `\uXXXX`, and a rejection of raw
control characters. -/
def parseStringBody : List Char → List Char → Option (String × List Char)
  | '"' :: rest, acc => some (String.mk acc.reverse, rest)
  | '\\' :: e :: rest, acc =>
    match e with
    | '"' => parseStringBody rest ('"' :: acc)
    | '\\' => parseStringBody rest ('\\' :: acc)
    | '/' => parseStringBody rest ('/' :: acc)
    | 'b' => parseStringBody rest ('\x08' :: acc)
    | 'f' => parseStringBody rest ('\x0c' :: acc)
    | 'n' => parseStringBody rest ('\n' :: acc)
    | 'r' => parseStringBody rest ('\r' :: acc)
    | 't' => parseStringBody rest ('\t' :: acc)
    | 'u' =>
      match rest with
      | h1 :: h2 :: h3 :: h4 :: rest2 =>
        match hexVal h1, hexVal h2, hexVal h3, hexVal h4 with
        | some a, some b, some c, some d =>
          parseStringBody rest2 (Char.ofNat (4096 * a + 256 * b + 16 * c + d) :: acc)
        | _, _, _, _ => none
      | _ => none
    | _ => none
  | c :: rest, acc => if c.toNat < 32 then none else parseStringBody rest (c :: acc)
  | [], _ => none

/-- Integer value of a digit sequence. -/
def digitsVal (ds : List Char) : Nat :=
  ds.foldl (fun acc c => 10 * acc + (c.toNat - 48)) 0

/-- A JSON number per Python's decoder regex
`-?(0|[1-9]\d*)(\.\d+)?([eE][-+]?\d+)?`, yielding an `int` when there
is no fraction or exponent and a `float` (carrying its literal text)
otherwise; `-Infinity` is also accepted there. -/
def parseNumber (cs : List Char) : Option (JVal × List Char) :=
  let (neg, cs1) :=
    match cs with
    | '-' :: rest => (true, rest)
    | _ => (false, cs)
  match cs1 with
  | 'I' :: 'n' :: 'f' :: 'i' :: 'n' :: 'i' :: 't' :: 'y' :: rest =>
    if neg then some (.jfloat "-Infinity", rest) else none
  | '0' :: rest =>
    parseNumTail neg ['0'] rest
  | c :: rest =>
    if '1' ≤ c ∧ c ≤ '9' then
      let ds := rest.takeWhile (fun d => '0' ≤ d ∧ d ≤ '9')
      parseNumTail neg (c :: ds) (rest.drop ds.length)
    else none
  | [] => none
where
  /-- Optional fraction and exponent after the integer digits. -/
  parseNumTail (neg : Bool) (intDs : List Char) (cs : List Char) : Option (JVal × List Char) :=
    let (fracDs, cs2) :=
      match cs with
      | '.' :: d :: rest =>
        if '0' ≤ d ∧ d ≤ '9' then
          let ds := rest.takeWhile (fun e => '0' ≤ e ∧ e ≤ '9')
          ('.' :: d :: ds, rest.drop ds.length)
        else ([], cs)
      | _ => ([], cs)
    let (expDs, cs3) :=
      match cs2 with
      | e :: rest =>
        if e = 'e' ∨ e = 'E' then
          let (sgn, rest2) :=
            match rest with
            | s :: r2 => if s = '+' ∨ s = '-' then ([s], r2) else ([], rest)
            | [] => ([], rest)
          match rest2 with
          | d :: r3 =>
            if '0' ≤ d ∧ d ≤ '9' then
              let ds := r3.takeWhile (fun f => '0' ≤ f ∧ f ≤ '9')
              (e :: sgn ++ d :: ds, r3.drop ds.length)
            else ([], cs2)
          | [] => ([], cs2)
        else ([], cs2)
      | [] => ([], cs2)
    if fracDs = [] ∧ expDs = [] then
      let n : Int := Int.ofNat (digitsVal intDs)
      some (.jint (if neg then -n else n), cs3)
    else
      some (.jfloat (String.mk ((if neg then ['-'] else []) ++ intDs ++ fracDs ++ expDs)), cs3)

mutual

/-- One JSON value, per Python's strict decoder (which also accepts the
extensions `NaN` and `Infinity`); `fuel` bounds the recursion and is
chosen larger than the input length. -/
def parseValue : Nat → List Char → Option (JVal × List Char)
  | 0, _ => none
  | fuel + 1, cs =>
    match skipWs cs with
    | '"' :: rest => Option.map (fun p => (JVal.jstr p.1, p.2)) (parseStringBody rest [])
    | '\x7b' :: rest =>
      (match skipWs rest with
      | '\x7d' :: rest2 => some (.jobj .fnil, rest2)
      | _ => parseMembers fuel rest .fnil)
    | '[' :: rest =>
      (match skipWs rest with
      | ']' :: rest2 => some (.jarr .nil, rest2)
      | _ => parseElems fuel rest [])
    | 'n' :: 'u' :: 'l' :: 'l' :: rest => some (.jnull, rest)
    | 't' :: 'r' :: 'u' :: 'e' :: rest => some (.jbool true, rest)
    | 'f' :: 'a' :: 'l' :: 's' :: 'e' :: rest => some (.jbool false, rest)
    | 'N' :: 'a' :: 'N' :: rest => some (.jfloat "NaN", rest)
    | 'I' :: 'n' :: 'f' :: 'i' :: 'n' :: 'i' :: 't' :: 'y' :: rest => some (.jfloat "Infinity", rest)
    | cs2 => parseNumber cs2

/-- The members of a JSON object after `{`, accumulated into a Python
dict (`fieldsSet`: duplicate keys keep first position, last value). -/
def parseMembers : Nat → List Char → JFields → Option (JVal × List Char)
  | 0, _, _ => none
  | fuel + 1, cs, acc =>
    match skipWs cs with
    | '"' :: rest =>
      match parseStringBody rest [] with
      | none => none
      | some (k, rest2) =>
        match skipWs rest2 with
        | ':' :: rest3 =>
          match parseValue fuel rest3 with
          | none => none
          | some (v, rest4) =>
            let acc2 := fieldsSet acc k v
            match skipWs rest4 with
            | ',' :: rest5 => parseMembers fuel rest5 acc2
            | '\x7d' :: rest5 => some (.jobj acc2, rest5)
            | _ => none
        | _ => none
    | _ => none

/-- The elements of a JSON array after `[`. -/
def parseElems : Nat → List Char → List JVal → Option (JVal × List Char)
  | 0, _, _ => none
  | fuel + 1, cs, acc =>
    match parseValue fuel cs with
    | none => none
    | some (v, rest) =>
      match skipWs rest with
      | ',' :: rest2 => parseElems fuel rest2 (acc ++ [v])
      | ']' :: rest2 => some (.jarr (JList.ofList (acc ++ [v])), rest2)
      | _ => none

end

/-- Python `json.loads(text)`: parse one JSON value and require that
only whitespace follows (otherwise `Extra data`); `none` models a
raised `json.JSONDecodeError`. -/
def jsonLoads (text : String) : Option JVal :=
  match parseValue (text.length + 2) text.toList with
  | some (v, rest) => if skipWs rest = [] then some v else none
  | none => none

/-- The tail of a quoted CSV field: doubled quotes become a literal
quote; after the closing quote, Python's non-strict reader appends any
further characters up to the delimiter. -/
def csvQuotedField : List Char → List Char → List Char
  | '"' :: '"' :: rest, acc => csvQuotedField rest ('"' :: acc)
  | '"' :: rest, acc => acc.reverse ++ (rest.takeWhile (fun c => c ≠ ','))
  | c :: rest, acc => csvQuotedField rest (c :: acc)
  | [], acc => acc.reverse

/-- `row[0]` of Python's `csv.reader` on one line (default dialect:
delimiter `,`, quote character `"`): a field starting with the quote
character is a quoted field, any other field runs to the first
delimiter. -/
def firstCsvField (line : String) : String :=
  match line.toList with
  | '"' :: rest => String.mk (csvQuotedField rest [])
  | cs => String.mk (cs.takeWhile (fun c => c ≠ ','))

/-- Outcome of `infer_schema` (lines 13-43): the accumulated schema,
the warnings in emission order, a raised exception if any (the walk
calls `.items()` on the decoded value, so a non-object raises an
`AttributeError` that only the `json.JSONDecodeError` handler does not
catch), and the final value of the line counter `i`. -/
structure InferRes where
  schema : Schema
  diags : List String
  err : Option String
  reached : Nat

/-- The `for i, line in enumerate(f)` loop of `infer_schema` (lines
33-41): stop once `i >= sample_size`; on a parsed object run
`process_item` from depth 0; on a decode error warn with the 1-based
line number and continue; either way the counter advances once per
line read. -/
def inferLoop (md : Option Nat) (sampleSize : Nat) : List String → Nat → Schema → List String → InferRes
  | [], i, s, ds => ⟨s, ds, none, i⟩
  | line :: rest, i, s, ds =>
    if i ≥ sampleSize then ⟨s, ds, none, i⟩
    else
      match jsonLoads line with
      | some (.jobj fs) => inferLoop md sampleSize rest (i + 1) (processItem md fs "" 0 s) ds
      | some _ => ⟨s, ds, some "AttributeError", i⟩
      | none => inferLoop md sampleSize rest (i + 1) s (ds ++ ["Invalid JSON on line " ++ toString (i + 1)])

/-- `infer_schema(input_file, sample_size, max_depth)` on the file's
lines. -/
def inferRun (md : Option Nat) (sampleSize : Nat) (lines : List String) : InferRes :=
  inferLoop md sampleSize lines 0 [] []

/-- `infer_schema` as a fallible call: its schema and warnings, or the
uncaught exception. -/
def inferSchemaE (md : Option Nat) (sampleSize : Nat) (lines : List String) : Except String (Schema × List String) :=
  let r := inferRun md sampleSize lines
  match r.err with
  | none => .ok (r.schema, r.diags)
  | some e => .error e

/-- State of the loading loop of `process_jsonl` (lines 82-96): the
current `chunks` list of serialized flattened rows, the batches handed
to the sink's bulk insert so far, and the warnings in emission order. -/
structure LoadState where
  chunks : List String
  batches : List (List String)
  diags : List String

/-- One iteration of the `for row in reader` loop of `process_jsonl`
(lines 85-94), against a sink accepting predicate: an empty line gives
an empty CSV row, so `row[0]` raises an uncaught `IndexError`; else
`row[0]` is the line's first CSV field, a decode failure warns with a
100-character excerpt and continues, a decoded non-object raises an
uncaught `AttributeError` from `flatten_json`, and a decoded object is
flattened, serialized, and appended, flushing to the sink once
`len(chunks) >= chunk_size`. -/
def loadStepS (md : Option Nat) (chunkSize : Nat) (sinkOk : List String → Bool)
    (st : LoadState) (line : String) : LoadState × Option String :=
  if line = "" then (st, some "IndexError")
  else
    let fld := firstCsvField line
    match jsonLoads fld with
    | none => ({ st with diags := st.diags ++ ["Invalid JSON: " ++ fld.take 100 ++ "..."] }, none)
    | some (.jobj fs) =>
      let row := dumpsFlat (flattenJson md fs "" 0)
      let cs := st.chunks ++ [row]
      if cs.length ≥ chunkSize then
        if sinkOk cs then ({ chunks := [], batches := st.batches ++ [cs], diags := st.diags }, none)
        else ({ st with chunks := cs }, some "SinkError")
      else ({ st with chunks := cs }, none)
    | some _ => (st, some "AttributeError")

/-- The `for row in reader` loop, stopping at the first uncaught
exception. -/
def loadLoopS (md : Option Nat) (chunkSize : Nat) (sinkOk : List String → Bool) :
    List String → LoadState → LoadState × Option String
  | [], st => (st, none)
  | line :: rest, st =>
    match loadStepS md chunkSize sinkOk st line with
    | (st2, some e) => (st2, some e)
    | (st2, none) => loadLoopS md chunkSize sinkOk rest st2

/-- The loading phase of `process_jsonl` from a given state: run the
loop, then flush the final partial batch if `chunks` is non-empty
(lines 95-96). -/
def loadRun (md : Option Nat) (chunkSize : Nat) (sinkOk : List String → Bool)
    (lines : List String) (st : LoadState) : LoadState × Option String :=
  match loadLoopS md chunkSize sinkOk lines st with
  | (st2, some e) => (st2, some e)
  | (st2, none) =>
    if st2.chunks = [] then (st2, none)
    else if sinkOk st2.chunks then
      ({ chunks := [], batches := st2.batches ++ [st2.chunks], diags := st2.diags }, none)
    else (st2, some "SinkError")

/-- The loading phase of `process_jsonl` on the file's lines. -/
def loadPassS (md : Option Nat) (chunkSize : Nat) (sinkOk : List String → Bool)
    (lines : List String) : LoadState × Option String :=
  loadRun md chunkSize sinkOk lines ⟨[], [], []⟩

/-- A sink that accepts every batch. -/
def alwaysOk : List String → Bool := fun _ => true

/-- The sequence of serialized flattened rows a run produces, together
with the first uncaught exception if any: the loading loop's row
production stripped of its chunking (a derived specification view used
to state the batch-boundary property). -/
def flatRows (md : Option Nat) : List String → List String × Option String
  | [] => ([], none)
  | line :: rest =>
    if line = "" then ([], some "IndexError")
    else
      match jsonLoads (firstCsvField line) with
      | none => flatRows md rest
      | some (.jobj fs) =>
        let r := flatRows md rest
        (dumpsFlat (flattenJson md fs "" 0) :: r.1, r.2)
      | some _ => ([], some "AttributeError")

/-- Split a list into consecutive groups of `c` elements, the last
group possibly shorter; the fuel argument starts at the list's length. -/
def chunksGo (c : Nat) : Nat → List α → List (List α)
  | _, [] => []
  | 0, _ :: _ => []
  | fuel + 1, a :: as => ((a :: as).take c) :: chunksGo c fuel ((a :: as).drop c)

/-- Consecutive groups of `c` elements. -/
def chunksOf (c : Nat) (l : List α) : List (List α) :=
  chunksGo c l.length l

/-- The `main` driver (lines 130-164) after argument handling, on a
non-dry run: `process_jsonl` (inference with the default sample size
1000, table creation, loading), a second schema inference for the
report field list, one report per field; any exception is caught and
logged as an error, and the final `Processing complete.` info line is
logged after the `try`/`except`/`finally` block.  The returned list is
the emitted log in order. -/
def mainModel (md : Option Nat) (chunkSize : Nat) (sinkOk : List String → Bool)
    (lines : List String) (fields : List String) : List String :=
  let r1 := inferRun md 1000 lines
  match r1.err with
  | some e => r1.diags ++ ["An error occurred: " ++ e, "Processing complete."]
  | none =>
    match loadPassS md chunkSize sinkOk lines with
    | (st, some e) => r1.diags ++ st.diags ++ ["An error occurred: " ++ e, "Processing complete."]
    | (st, none) =>
      let r2 := inferRun md 1000 lines
      match r2.err with
      | some e => r1.diags ++ st.diags ++ r2.diags ++ ["An error occurred: " ++ e, "Processing complete."]
      | none =>
        let fls := if fields = [] then keysOf r2.schema else fields
        r1.diags ++ st.diags ++ r2.diags
          ++ fls.map (fun f => "Generated report for field: " ++ f)
          ++ ["Processing complete."]

mutual

/-- Paths a record's subtree contributes during flattening: one path
per scalar or array leaf, recursing through objects. -/
def pathsVal : JVal → String → List String
  | .jobj fs, fullKey => pathsFields fs (fullKey ++ ".")
  | _, fullKey => [fullKey]

def pathsFields : JFields → String → List String
  | .fnil, _ => []
  | .fcons k v rest, pfx => pathsVal v (pfx ++ k) ++ pathsFields rest pfx

end

mutual

/-- No array anywhere along the walked part of the record has an
object as its first element (the configuration in which inference and
flattening agree on paths). -/
def valOkB : JVal → Bool
  | .jobj fs => fieldsOkB fs
  | .jarr (.cons (.jobj _) _) => false
  | _ => true

def fieldsOkB : JFields → Bool
  | .fnil => true
  | .fcons _ v rest => valOkB v && fieldsOkB rest

end

/-- Whether the first list is an initial run of the second. -/
def chPre : List Char → List Char → Bool
  | [], _ => true
  | _ :: _, [] => false
  | a :: as, b :: bs => a = b && chPre as bs

/-- Whether `sub` occurs as a contiguous run inside `l`. -/
def chSub (sub : List Char) : List Char → Bool
  | [] => chPre sub []
  | c :: cs => chPre sub (c :: cs) || chSub sub cs

example : jsonDumps (.jarr (.cons (.jint 1) (.cons (.jint 2) (.cons (.jint 3) .nil)))) = "[1, 2, 3]" := by rfl

example : jsonDumps (.jobj (.fcons "b" (.jint 1) .fnil)) = "\x7b\"b\": 1\x7d" := by rfl

theorem processValue_jobj (md : Option Nat) (fs : JFields) (fullKey : String) (depth : Nat) (s : Schema) :
    processValue md (.jobj fs) fullKey depth s = processItem md fs (fullKey ++ ".") (depth + 1) s := rfl

theorem flattenValue_jobj (md : Option Nat) (fs : JFields) (newKey : String) (depth : Nat) (acc : FlatRec) :
    flattenValue md (.jobj fs) newKey depth acc
      = dictUpdate acc (flattenJson md fs (newKey ++ ".") (depth + 1)) := rfl

example :
    processItem none (.fcons "a" (.jobj (.fcons "b" (.jint 1) .fnil))
      (.fcons "c" (.jarr (.cons (.jint 1) (.cons (.jint 2) (.cons (.jint 3) .nil)))) .fnil)) "" 0 []
    = [("a.b", ["int"]), ("c", ["array"])] := by rfl

example :
    flattenJson none (.fcons "a" (.jobj (.fcons "b" (.jint 1) .fnil))
      (.fcons "c" (.jarr (.cons (.jint 1) (.cons (.jint 2) (.cons (.jint 3) .nil)))) .fnil)) "" 0
    = [("a.b", .jint 1), ("c", .jstr "[1, 2, 3]")] := by rfl

example : jsonLoads "\x7b\"a\": 1\x7d" = some (.jobj (.fcons "a" (.jint 1) .fnil)) := by rfl

example : jsonLoads "not json" = none := by rfl

example : jsonLoads "\x7b\"a\": 1" = none := by rfl

example : jsonLoads "42" = some (.jint 42) := by rfl

example : jsonLoads "\x7b\"a\":\x7b\"b\":1\x7d,\"c\":[1,2,3]\x7d"
    = some (.jobj (.fcons "a" (.jobj (.fcons "b" (.jint 1) .fnil))
        (.fcons "c" (.jarr (.cons (.jint 1) (.cons (.jint 2) (.cons (.jint 3) .nil)))) .fnil))) := by rfl

example : jsonLoads "\x7b\"x\":[]\x7d" = some (.jobj (.fcons "x" (.jarr .nil) .fnil)) := by rfl

example : firstCsvField "\x7b\"a\": 1, \"b\": 2\x7d" = "\x7b\"a\": 1" := by rfl

example : firstCsvField "\x7b\"a\": 1\x7d" = "\x7b\"a\": 1\x7d" := by rfl

example : (inferRun none 1000 ["\x7b\"a\": [\x7b\"b\": 1\x7d]\x7d"]).schema = [("a.b", ["int"])] := by rfl

example : (inferRun none 1000 ["not json", "\x7b\"a\": 1\x7d"]).diags = ["Invalid JSON on line 1"] := by rfl

example : (inferRun none 1000 ["42"]).err = some "AttributeError" := by rfl

example :
    loadPassS none 2 alwaysOk ["\x7b\"a\": 1\x7d", "\x7b\"a\": 2\x7d", "\x7b\"a\": 3\x7d"]
    = (⟨[], [["\x7b\"a\": 1\x7d", "\x7b\"a\": 2\x7d"], ["\x7b\"a\": 3\x7d"]], []⟩, none) := by rfl

example :
    loadPassS none 1000 alwaysOk ["\x7b\"a\": 1, \"b\": 2\x7d"]
    = (⟨[], [], ["Invalid JSON: \x7b\"a\": 1..."]⟩, none) := by rfl

example :
    mainModel none 1 (fun _ => false) ["\x7b\"a\": 1\x7d"] []
    = ["An error occurred: SinkError", "Processing complete."] := by rfl

/-- Claim C1: with `max_depth = d`, entering a subtree past the depth
limit records nothing during inference (so the subtree contributes no
column to the resolved schema), while flattening the same subtree
yields exactly one entry mapping the prefix with its trailing path
separator stripped to the JSON serialization of the whole subtree. -/
theorem c1_depth_truncation_asymmetry (d : Nat) (fs : JFields) (pfx : String)
    (depth : Nat) (s : Schema) (h : d < depth) :
    processItem (some d) fs pfx depth s = s
    ∧ createColumns (processItem (some d) fs pfx depth s) = createColumns s
    ∧ flattenJson (some d) fs pfx depth = [(rstripDots pfx, .jstr (jsonDumps (.jobj fs)))] := by
  have hs : stopAt (some d) depth = true := by
    simp [stopAt]
    omega
  refine ⟨?_, ?_, ?_⟩ <;> simp [processItem, flattenJson, hs]

/-- Witness for C1 at `d = 0`, subtree `{"x": 1}` reached under prefix
`a.` at depth 1. -/
theorem c1_depth_truncation_asymmetry_witness :
    processItem (some 0) (.fcons "x" (.jint 1) .fnil) "a." 1 [] = []
    ∧ flattenJson (some 0) (.fcons "x" (.jint 1) .fnil) "a." 1
      = [("a", .jstr "\x7b\"x\": 1\x7d")] := by
  have h := c1_depth_truncation_asymmetry 0 (.fcons "x" (.jint 1) .fnil) "a." 1 [] (by decide)
  refine ⟨h.1, ?_⟩
  rw [h.2.2]
  rfl

/-- Claim C6: a path with exactly one observed kind resolves through
the fixed table (`str`, `int`, `float`, `bool`, `NoneType`, `array`),
a path with more than one observed kind resolves to `VARCHAR`
unconditionally, and the resolution is invariant under permuting the
observed kinds. -/
theorem c6_type_resolution (ts : List String) :
    (sqlTypeOf ["str"] = "VARCHAR" ∧ sqlTypeOf ["int"] = "INTEGER"
      ∧ sqlTypeOf ["float"] = "FLOAT" ∧ sqlTypeOf ["bool"] = "BOOLEAN"
      ∧ sqlTypeOf ["NoneType"] = "VARCHAR" ∧ sqlTypeOf ["array"] = "VARCHAR")
    ∧ (2 ≤ ts.length → sqlTypeOf ts = "VARCHAR")
    ∧ (∀ ts2 : List String, ts.Perm ts2 → sqlTypeOf ts = sqlTypeOf ts2) := by
  refine ⟨⟨rfl, rfl, rfl, rfl, rfl, rfl⟩, ?_, ?_⟩
  · intro h2
    have h1 : ts.length ≠ 1 := by omega
    simp [sqlTypeOf, h1]
  · intro ts2 hperm
    have hlen := hperm.length_eq
    by_cases h1 : ts.length = 1
    · obtain ⟨a, ha⟩ := List.length_eq_one.1 h1
      subst ha
      have h3 : [a] = ts2 := (List.singleton_perm).1 hperm
      rw [← h3]
    · have h2 : ts2.length ≠ 1 := by omega
      simp [sqlTypeOf, h1, h2]

/-- Witness for C6: a path observed as both `int` and `str` resolves
to `VARCHAR` in either observation order. -/
theorem c6_type_resolution_witness :
    sqlTypeOf ["int", "str"] = "VARCHAR"
    ∧ sqlTypeOf ["int", "str"] = sqlTypeOf ["str", "int"] := by
  refine ⟨(c6_type_resolution ["int", "str"]).2.1 (by decide), ?_⟩
  exact (c6_type_resolution ["int", "str"]).2.2 ["str", "int"] (by decide)

/-- Claim C10: the line `42` is valid JSON but not an object; schema
inference aborts on it with an uncaught `AttributeError` (the walk
calls `.items()` and only decode errors are caught), recording nothing,
and the loading pass's flattener aborts the same way on that line; the
line `[1,2]` likewise aborts inference. -/
theorem c10_nonobject_line_crash :
    jsonLoads "42" = some (.jint 42)
    ∧ (inferRun none 1000 ["42"]).err = some "AttributeError"
    ∧ (inferRun none 1000 ["42"]).schema = []
    ∧ loadPassS none 1000 alwaysOk ["42"] = (⟨[], [], []⟩, some "AttributeError")
    ∧ jsonLoads "[1,2]" = some (.jarr (.cons (.jint 1) (.cons (.jint 2) .nil)))
    ∧ (inferRun none 1000 ["[1,2]"]).err = some "AttributeError" :=
  ⟨rfl, rfl, rfl, rfl, rfl, rfl⟩

/-- Counterexample to C7 as stated: flattening
`{"a":{"b":1},"c":[1,2,3]}` stores `"[1, 2, 3]"` at `c` (Python's
`json.dumps` default separators put a space after each comma), which
differs from the claimed text `"[1,2,3]"`. -/
theorem c7_array_flatten_counterexample :
    flattenJson none (.fcons "a" (.jobj (.fcons "b" (.jint 1) .fnil))
        (.fcons "c" (.jarr (.cons (.jint 1) (.cons (.jint 2) (.cons (.jint 3) .nil)))) .fnil)) "" 0
      = [("a.b", .jint 1), ("c", .jstr "[1, 2, 3]")]
    ∧ ("[1, 2, 3]" : String) ≠ "[1,2,3]" :=
  ⟨rfl, by decide⟩

/-- Claim C7 amended: every array met during flattening (outside a
depth-truncated subtree) is stored whole as its `json.dumps` text —
`"[1, 2, 3]"` for `[1,2,3]` — and never expanded; the round-trip
record flattens to `a.b ↦ 1`, `c ↦ "[1, 2, 3]"` with `a.b` inferred
`int → INTEGER` and `c` inferred `array → VARCHAR`, and `{"x":[]}` is
classified `array` at `x` and flattens to `x ↦ "[]"`. -/
theorem c7_array_flatten_amended :
    (∀ (md : Option Nat) (acc : FlatRec) (newKey : String) (depth : Nat) (es : JList),
      flattenValue md (.jarr es) newKey depth acc
        = dictSet acc newKey (.jstr (jsonDumps (.jarr es))))
    ∧ flattenJson none (.fcons "a" (.jobj (.fcons "b" (.jint 1) .fnil))
        (.fcons "c" (.jarr (.cons (.jint 1) (.cons (.jint 2) (.cons (.jint 3) .nil)))) .fnil)) "" 0
      = [("a.b", .jint 1), ("c", .jstr "[1, 2, 3]")]
    ∧ (inferRun none 1000 ["\x7b\"a\":\x7b\"b\":1\x7d,\"c\":[1,2,3]\x7d"]).schema
      = [("a.b", ["int"]), ("c", ["array"])]
    ∧ createColumns [("a.b", ["int"]), ("c", ["array"])] = [("a.b", "INTEGER"), ("c", "VARCHAR")]
    ∧ (inferRun none 1000 ["\x7b\"x\":[]\x7d"]).schema = [("x", ["array"])]
    ∧ flattenJson none (.fcons "x" (.jarr .nil) .fnil) "" 0 = [("x", .jstr "[]")] :=
  ⟨fun _ _ _ _ _ => rfl, rfl, rfl, rfl, rfl, rfl⟩

/-- Counterexample to C3 as stated: the line `{"a": 1, "b": 2}` holds
exactly one valid JSON object and inference parses it, but the loading
pass's `csv.reader` splits the line at the comma, so `row[0]` is the
truncated text `{"a": 1`, the parse fails, and the line is skipped
with a warning instead of being flattened and appended. -/
theorem c3_loading_duality_counterexample :
    jsonLoads "\x7b\"a\": 1, \"b\": 2\x7d"
      = some (.jobj (.fcons "a" (.jint 1) (.fcons "b" (.jint 2) .fnil)))
    ∧ (inferRun none 1000 ["\x7b\"a\": 1, \"b\": 2\x7d"]).schema = [("a", ["int"]), ("b", ["int"])]
    ∧ firstCsvField "\x7b\"a\": 1, \"b\": 2\x7d" = "\x7b\"a\": 1"
    ∧ jsonLoads "\x7b\"a\": 1" = none
    ∧ loadPassS none 1000 alwaysOk ["\x7b\"a\": 1, \"b\": 2\x7d"]
      = (⟨[], [], ["Invalid JSON: \x7b\"a\": 1..."]⟩, none) :=
  ⟨rfl, rfl, rfl, rfl, rfl⟩

/-- Claim C3 amended: the loading pass treats each line as a CSV row
and parses the row's first field; for every line whose first CSV field
is the entire line and holds a valid JSON object, the object is
parsed, flattened, and its serialization appended to the current
batch. -/
theorem c3_loading_duality_amended (md : Option Nat) (C : Nat) (sinkOk : List String → Bool)
    (st : LoadState) (line : String) (fs : JFields)
    (hne : line ≠ "") (hfld : firstCsvField line = line)
    (hjson : jsonLoads line = some (.jobj fs))
    (hroom : st.chunks.length + 1 < C) :
    loadStepS md C sinkOk st line
      = ({ st with chunks := st.chunks ++ [dumpsFlat (flattenJson md fs "" 0)] }, none) := by
  simp [loadStepS, hne, hfld, hjson]
  intro h
  exact absurd h (by omega)

/-- Witness for the amended C3 at the comma-free line `{"a": 1}`. -/
theorem c3_loading_duality_amended_witness :
    loadStepS none 1000 alwaysOk ⟨[], [], []⟩ "\x7b\"a\": 1\x7d"
      = (⟨["\x7b\"a\": 1\x7d"], [], []⟩, none) := by
  have h := c3_loading_duality_amended none 1000 alwaysOk ⟨[], [], []⟩ "\x7b\"a\": 1\x7d"
    (.fcons "a" (.jint 1) .fnil) (by decide) (by rfl) (by rfl) (by decide)
  rw [h]
  rfl

/-- Counterexample to C8 as stated: for the invalid line `not json`,
the inference-pass diagnostic names the line number but contains no
excerpt of the line, the loading-pass diagnostic contains an excerpt
but no line number, and the two diagnostics differ — the two passes do
not behave identically and neither emits both pieces. -/
theorem c8_malformed_line_counterexample :
    (inferRun none 1000 ["not json", "\x7b\"a\": 1\x7d"]).diags = ["Invalid JSON on line 1"]
    ∧ chSub ("not json".toList) ("Invalid JSON on line 1".toList) = false
    ∧ (loadPassS none 1000 alwaysOk ["not json", "\x7b\"a\": 1\x7d"]).1.diags
      = ["Invalid JSON: not json..."]
    ∧ chSub ("1".toList) ("Invalid JSON: not json...".toList) = false
    ∧ ("Invalid JSON on line 1" : String) ≠ "Invalid JSON: not json..." :=
  ⟨rfl, by decide, rfl, by decide, by decide⟩

/-- Claim C8 amended: in the inference pass, every line that is not
valid JSON is skipped with the warning `Invalid JSON on line N`
(1-based line number, no excerpt), adds no schema entry, and
processing continues.  In the loading pass a line's fate depends on
its first CSV field rather than on the line itself: a non-blank line
whose first CSV field is not valid JSON is skipped with the warning
`Invalid JSON: <first 100 characters of the field>...` (truncated
excerpt, no line number) and yields no flattened record; a blank line
aborts the pass with an uncaught `IndexError`; and an invalid line
whose first CSV field parses as an object — such as `{"a": 1},x` — is
flattened and appended as a record.  The two passes' diagnostics
differ. -/
theorem c8_malformed_line_amended (md : Option Nat) (S C : Nat) (sinkOk : List String → Bool)
    (line : String) (rest : List String) (i : Nat) (s : Schema) (ds : List String)
    (st : LoadState) :
    (i < S → jsonLoads line = none →
      inferLoop md S (line :: rest) i s ds
        = inferLoop md S rest (i + 1) s (ds ++ ["Invalid JSON on line " ++ toString (i + 1)]))
    ∧ (line ≠ "" → jsonLoads (firstCsvField line) = none →
      loadStepS md C sinkOk st line
        = ({ st with diags := st.diags ++ ["Invalid JSON: " ++ (firstCsvField line).take 100 ++ "..."] },
            none))
    ∧ loadStepS md C sinkOk st "" = (st, some "IndexError")
    ∧ jsonLoads "\x7b\"a\": 1\x7d,x" = none
    ∧ firstCsvField "\x7b\"a\": 1\x7d,x" = "\x7b\"a\": 1\x7d"
    ∧ loadPassS none 1000 alwaysOk ["\x7b\"a\": 1\x7d,x"]
      = (⟨[], [["\x7b\"a\": 1\x7d"]], []⟩, none) := by
  refine ⟨?_, ?_, ?_, rfl, rfl, rfl⟩
  · intro hi hinf
    have h : ¬ i ≥ S := by omega
    simp [inferLoop, h, hinf]
  · intro hne hload
    simp [loadStepS, hne, hload]
  · simp [loadStepS]

/-- Witness for the amended C8 at the line `not json` in first
position: both skip equations with their hypotheses discharged. -/
theorem c8_malformed_line_amended_witness :
    inferLoop none 1000 ["not json"] 0 [] []
      = inferLoop none 1000 [] 1 [] (["Invalid JSON on line 1"])
    ∧ loadStepS none 1000 alwaysOk ⟨[], [], []⟩ "not json"
      = (⟨[], [], ["Invalid JSON: not json..."]⟩, none) := by
  have h := c8_malformed_line_amended none 1000 1000 alwaysOk "not json" [] 0 [] [] ⟨[], [], []⟩
  refine ⟨?_, ?_⟩
  · have h1 := h.1 (by decide) (by rfl)
    simpa using h1
  · rw [h.2.1 (by decide) (by rfl)]
    rfl

/-- Counterexample to C9 as stated: in a run whose sink rejects the
first batch, the error is reported and yet the `Processing complete.`
signal is still emitted (it is logged unconditionally after the
`try`/`except`/`finally` block), so the signal does not mark successful
termination. -/
theorem c9_completion_signal_counterexample :
    mainModel none 1 (fun _ => false) ["\x7b\"a\": 1\x7d"] []
      = ["An error occurred: SinkError", "Processing complete."]
    ∧ (loadPassS none 1 (fun _ => false) ["\x7b\"a\": 1\x7d"]).2 = some "SinkError"
    ∧ "Processing complete." ∈ mainModel none 1 (fun _ => false) ["\x7b\"a\": 1\x7d"] [] :=
  ⟨rfl, rfl, by decide⟩

/-- The inference loop's output depends only on the lines before the
sample budget runs out. -/
theorem inferLoop_take (md : Option Nat) (S : Nat) :
    ∀ (lines : List String) (i : Nat) (s : Schema) (ds : List String),
      inferLoop md S lines i s ds = inferLoop md S (lines.take (S - i)) i s ds := by
  intro lines
  induction lines with
  | nil => intro i s ds; rw [List.take_nil]
  | cons line rest ih =>
    intro i s ds
    by_cases h : i ≥ S
    · have h0 : S - i = 0 := by omega
      rw [h0]
      simp [inferLoop, h]
    · have h1 : S - i = (S - (i + 1)) + 1 := by omega
      rw [h1, List.take_succ_cons]
      simp only [inferLoop]
      rw [if_neg h, if_neg h]
      cases hjl : jsonLoads line with
      | none => exact ih (i + 1) s (ds ++ ["Invalid JSON on line " ++ toString (i + 1)])
      | some v =>
        cases v with
        | jobj fs => exact ih (i + 1) (processItem md fs "" 0 s) ds
        | jnull => rfl
        | jbool b => rfl
        | jint n => rfl
        | jfloat lit => rfl
        | jstr t => rfl
        | jarr es => rfl

/-- When no exception aborts the loop, the line counter advances once
per line read — failed parses included — and stops exactly at the
sample budget or the end of the stream. -/
theorem inferLoop_reached (md : Option Nat) (S : Nat) :
    ∀ (lines : List String) (i : Nat) (s : Schema) (ds : List String),
      (inferLoop md S lines i s ds).err = none →
      (inferLoop md S lines i s ds).reached = i + min (S - i) lines.length := by
  intro lines
  induction lines with
  | nil => intro i s ds _; simp [inferLoop]
  | cons line rest ih =>
    intro i s ds herr
    by_cases h : i ≥ S
    · have h0 : S - i = 0 := by omega
      simp [inferLoop, h, h0]
    · have hlt : ¬ i ≥ S := h
      simp only [inferLoop] at herr ⊢
      rw [if_neg hlt] at herr ⊢
      cases hjl : jsonLoads line with
      | none =>
        rw [hjl] at herr
        have h2 := ih (i + 1) s (ds ++ ["Invalid JSON on line " ++ toString (i + 1)]) herr
        exact h2.trans (by simp [List.length_cons]; omega)
      | some v =>
        rw [hjl] at herr
        cases v with
        | jobj fs =>
          have h2 := ih (i + 1) (processItem md fs "" 0 s) ds herr
          exact h2.trans (by simp [List.length_cons]; omega)
        | jnull => exact Option.noConfusion herr
        | jbool b => exact Option.noConfusion herr
        | jint n => exact Option.noConfusion herr
        | jfloat lit => exact Option.noConfusion herr
        | jstr t => exact Option.noConfusion herr
        | jarr es => exact Option.noConfusion herr

/-- Claim C5: inference is determined by exactly the first
`sample_size` lines of the input (lines beyond the budget are never
examined), and — absent an uncaught exception — the number of
attempted lines is `min sample_size (number of lines)`, the budget
being consumed once per line read whether or not the line parses. -/
theorem c5_sampling_window (md : Option Nat) (S : Nat) (lines : List String) :
    inferRun md S lines = inferRun md S (lines.take S)
    ∧ ((inferRun md S lines).err = none →
        (inferRun md S lines).reached = min S lines.length) := by
  constructor
  · have h := inferLoop_take md S lines 0 [] []
    simpa [inferRun] using h
  · intro herr
    have h := inferLoop_reached md S lines 0 [] [] herr
    simpa [inferRun] using h

/-- Witness for C5 at sample size 2 over a one-line stream whose line
does not parse: the attempt still consumes the budget. -/
theorem c5_sampling_window_witness :
    inferRun none 2 ["not json"] = inferRun none 2 (["not json"].take 2)
    ∧ (inferRun none 2 ["not json"]).reached = min 2 1 := by
  refine ⟨(c5_sampling_window none 2 ["not json"]).1, ?_⟩
  have h := (c5_sampling_window none 2 ["not json"]).2 (by rfl)
  simpa using h

/-- `chunksGo` ignores the exact fuel once it covers the list length. -/
theorem chunksGo_congr {α : Type} (c : Nat) (hc : 1 ≤ c) :
    ∀ (fuel fuel2 : Nat) (l : List α), l.length ≤ fuel → l.length ≤ fuel2 →
      chunksGo c fuel l = chunksGo c fuel2 l := by
  intro fuel
  induction fuel with
  | zero =>
    intro fuel2 l h1 _
    have hl : l = [] := List.eq_nil_of_length_eq_zero (Nat.le_zero.1 h1)
    subst hl
    cases fuel2 <;> rfl
  | succ f ihf =>
    intro fuel2 l h1 h2
    cases l with
    | nil => cases fuel2 <;> rfl
    | cons a as =>
      cases fuel2 with
      | zero => simp at h2
      | succ f2 =>
        show ((a :: as).take c) :: chunksGo c f ((a :: as).drop c)
          = ((a :: as).take c) :: chunksGo c f2 ((a :: as).drop c)
        congr 1
        apply ihf f2 _ ?_ ?_ <;> simp [List.length_drop] <;> simp at h1 h2 <;> omega

/-- Unfolding equation for `chunksOf` on a non-empty list. -/
theorem chunksOf_cons {α : Type} (c : Nat) (hc : 1 ≤ c) (l : List α) (hne : l ≠ []) :
    chunksOf c l = l.take c :: chunksOf c (l.drop c) := by
  cases l with
  | nil => exact absurd rfl hne
  | cons a as =>
    show ((a :: as).take c) :: chunksGo c as.length ((a :: as).drop c) = _
    congr 1
    apply chunksGo_congr c hc <;> simp [List.length_drop] <;> omega

/-- `chunksOf` yields no group exactly on the empty list. -/
theorem chunksOf_eq_nil_iff {α : Type} (c : Nat) (hc : 1 ≤ c) (l : List α) :
    chunksOf c l = [] ↔ l = [] := by
  constructor
  · intro h
    cases l with
    | nil => rfl
    | cons a as =>
      rw [chunksOf_cons c hc _ (by simp)] at h
      exact absurd h (by simp)
  · intro h
    subst h
    rfl

/-- A non-empty list no longer than `c` forms a single group. -/
theorem chunksOf_small {α : Type} (c : Nat) (l : List α) (hne : l ≠ []) (hle : l.length ≤ c) :
    chunksOf c l = [l] := by
  have hc : 1 ≤ c := by
    have := List.length_pos.2 hne
    omega
  rw [chunksOf_cons c hc l hne, List.take_of_length_le hle, List.drop_eq_nil_of_le hle]
  rfl

/-- The number of groups is the ceiling of the length over `c`. -/
theorem chunksOf_length {α : Type} (c : Nat) (hc : 1 ≤ c) :
    ∀ (n : Nat) (l : List α), l.length ≤ n →
      (chunksOf c l).length = (l.length + c - 1) / c := by
  intro n
  induction n with
  | zero =>
    intro l h
    have hl : l = [] := List.eq_nil_of_length_eq_zero (Nat.le_zero.1 h)
    subst hl
    rw [show chunksOf c ([] : List α) = [] from rfl]
    simp [Nat.div_eq_of_lt (show c - 1 < c by omega)]
  | succ m ihm =>
    intro l hl
    cases l with
    | nil =>
      rw [show chunksOf c ([] : List α) = [] from rfl]
      simp [Nat.div_eq_of_lt (show c - 1 < c by omega)]
    | cons a as =>
      rw [chunksOf_cons c hc _ (by simp), List.length_cons,
        ihm ((a :: as).drop c) (by simp [List.length_drop] at hl ⊢; omega),
        List.length_drop]
      by_cases hNc : (a :: as).length ≤ c
      · have h1 : (a :: as).length - c = 0 := by omega
        rw [h1]
        rw [Nat.div_eq_of_lt (show 0 + c - 1 < c by omega)]
        have h2 : ((a :: as).length + c - 1) / c = 1 := by
          apply Nat.div_eq_of_lt_le
          · have hpos : 1 ≤ (a :: as).length := by simp
            omega
          · have hpos : 1 ≤ (a :: as).length := by simp
            omega
        omega
      · have e1 : (a :: as).length - c + c - 1 = (a :: as).length - 1 := by omega
        have e2 : (a :: as).length + c - 1 = ((a :: as).length - 1) + c := by omega
        rw [e1, e2, Nat.add_div_right _ (show 0 < c by omega)]

/-- Every group is non-empty and no longer than `c`. -/
theorem chunksOf_sizes {α : Type} (c : Nat) (hc : 1 ≤ c) :
    ∀ (n : Nat) (l : List α), l.length ≤ n →
      ∀ b ∈ chunksOf c l, b ≠ [] ∧ b.length ≤ c := by
  intro n
  induction n with
  | zero =>
    intro l h b hb
    have hl : l = [] := List.eq_nil_of_length_eq_zero (Nat.le_zero.1 h)
    subst hl
    exact absurd hb (by simp [chunksOf, chunksGo])
  | succ m ihm =>
    intro l hl b hb
    cases l with
    | nil => exact absurd hb (by simp [chunksOf, chunksGo])
    | cons a as =>
      rw [chunksOf_cons c hc _ (by simp)] at hb
      rcases List.mem_cons.1 hb with hb1 | hb2
      · subst hb1
        constructor
        · cases c with
          | zero => omega
          | succ c2 => simp [List.take_succ_cons]
        · rw [List.length_take]
          omega
      · exact ihm ((a :: as).drop c) (by simp [List.length_drop] at hl ⊢; omega) b hb2

/-- Every group except possibly the last has length exactly `c`. -/
theorem chunksOf_dropLast {α : Type} (c : Nat) (hc : 1 ≤ c) :
    ∀ (n : Nat) (l : List α), l.length ≤ n →
      ∀ b ∈ (chunksOf c l).dropLast, b.length = c := by
  intro n
  induction n with
  | zero =>
    intro l h b hb
    have hl : l = [] := List.eq_nil_of_length_eq_zero (Nat.le_zero.1 h)
    subst hl
    exact absurd hb (by simp [chunksOf, chunksGo])
  | succ m ihm =>
    intro l hl b hb
    cases l with
    | nil => exact absurd hb (by simp [chunksOf, chunksGo])
    | cons a as =>
      rw [chunksOf_cons c hc _ (by simp)] at hb
      by_cases hrest : chunksOf c ((a :: as).drop c) = []
      · rw [hrest] at hb
        exact absurd hb (by simp)
      · rw [List.dropLast_cons_of_ne_nil hrest] at hb
        rcases List.mem_cons.1 hb with hb1 | hb2
        · have hd : (a :: as).drop c ≠ [] :=
            fun h => hrest (by rw [h]; rfl)
          have hlen : c < (a :: as).length := by
            by_contra hle
            exact hd (List.drop_eq_nil_of_le (by omega))
          subst hb1
          rw [List.length_take]
          omega
        · exact ihm ((a :: as).drop c) (by simp [List.length_drop] at hl ⊢; omega) b hb2

/-- The last group's length is `l.length % c`, or `c` when `c` divides
the length. -/
theorem chunksOf_getLast {α : Type} (c : Nat) (hc : 1 ≤ c) :
    ∀ (n : Nat) (l : List α), l.length ≤ n →
      ∀ b, (chunksOf c l).getLast? = some b →
        b.length = if l.length % c = 0 then c else l.length % c := by
  intro n
  induction n with
  | zero =>
    intro l h b hb
    have hl : l = [] := List.eq_nil_of_length_eq_zero (Nat.le_zero.1 h)
    subst hl
    exact absurd hb (by simp [chunksOf, chunksGo])
  | succ m ihm =>
    intro l hl b hb
    cases l with
    | nil => exact absurd hb (by simp [chunksOf, chunksGo])
    | cons a as =>
      rw [chunksOf_cons c hc _ (by simp)] at hb
      by_cases hrest : chunksOf c ((a :: as).drop c) = []
      · rw [hrest] at hb
        have hb1 : (a :: as).take c = b := by simpa using hb
        have hdrop : (a :: as).drop c = [] :=
          (chunksOf_eq_nil_iff c hc _).1 hrest
        have hle : (a :: as).length ≤ c := by
          by_contra hgt
          have := List.drop_eq_nil_iff.1 hdrop
          omega
        have hpos : 1 ≤ (a :: as).length := by simp
        subst hb1
        rw [List.length_take]
        by_cases heq : (a :: as).length = c
        · rw [heq, Nat.mod_self]
          simp
        · rw [Nat.mod_eq_of_lt (by omega), if_neg (by omega)]
          omega
      · obtain ⟨x, xs, hxx⟩ := List.exists_cons_of_ne_nil hrest
        rw [hxx, List.getLast?_cons_cons] at hb
        have hd : (a :: as).drop c ≠ [] := by
          intro h
          rw [h] at hxx
          exact absurd hxx (by simp [chunksOf, chunksGo])
        have hlen : c < (a :: as).length := by
          by_contra hle
          exact hd (List.drop_eq_nil_of_le (by omega))
        have hrec := ihm ((a :: as).drop c)
          (by simp [List.length_drop] at hl ⊢; omega) b (by rw [hxx]; exact hb)
        rw [List.length_drop] at hrec
        rw [Nat.mod_eq_sub_mod (le_of_lt hlen)]
        exact hrec

/-- A successful loop step commutes with running the rest of the
stream. -/
theorem loadRun_cons_ok (md : Option Nat) (C : Nat) (sinkOk : List String → Bool)
    (line : String) (rest : List String) (st st2 : LoadState)
    (h : loadStepS md C sinkOk st line = (st2, none)) :
    loadRun md C sinkOk (line :: rest) st = loadRun md C sinkOk rest st2 := by
  simp [loadRun, loadLoopS, h]

/-- Against an always-accepting sink, the loading phase from a state
whose current chunk is strictly below the chunk size flushes exactly
the consecutive `chunkSize`-groups of the produced rows (prepended
with the pending chunk), draining the final partial group. -/
theorem loadRun_chunks (md : Option Nat) (C : Nat) (hc : 1 ≤ C) :
    ∀ (lines : List String) (cs : List String) (bs : List (List String)) (ds : List String),
      cs.length < C → (flatRows md lines).2 = none →
      (loadRun md C alwaysOk lines ⟨cs, bs, ds⟩).2 = none
      ∧ (loadRun md C alwaysOk lines ⟨cs, bs, ds⟩).1.batches
          = bs ++ chunksOf C (cs ++ (flatRows md lines).1) := by
  intro lines
  induction lines with
  | nil =>
    intro cs bs ds hcs _
    by_cases h0 : cs = []
    · subst h0
      refine ⟨rfl, ?_⟩
      show bs = bs ++ chunksOf C ([] ++ (flatRows md []).1)
      rw [show (flatRows md []).1 = [] from rfl]
      simp [chunksOf, chunksGo]
    · constructor
      · simp [loadRun, loadLoopS, h0, alwaysOk]
      · show (if cs = [] then _ else _ : LoadState × Option String).1.batches = _
        rw [if_neg h0]
        simp only [alwaysOk, if_pos]
        show bs ++ [cs] = bs ++ chunksOf C (cs ++ (flatRows md []).1)
        rw [show (flatRows md []).1 = [] from rfl, List.append_nil,
          chunksOf_small C cs h0 (by omega)]
  | cons line rest ih =>
    intro cs bs ds hcs hfr
    by_cases hne : line = ""
    · rw [show flatRows md (line :: rest) = ([], some "IndexError") by
        simp [flatRows, hne]] at hfr
      exact absurd hfr (by simp)
    · cases hjl : jsonLoads (firstCsvField line) with
      | none =>
        have hfr2 : flatRows md (line :: rest) = flatRows md rest := by
          simp [flatRows, hne, hjl]
        have hstep : loadStepS md C alwaysOk ⟨cs, bs, ds⟩ line
            = (⟨cs, bs, ds ++ ["Invalid JSON: " ++ (firstCsvField line).take 100 ++ "..."]⟩, none) := by
          simp [loadStepS, hne, hjl]
        rw [hfr2] at hfr
        rw [loadRun_cons_ok md C alwaysOk line rest _ _ hstep, hfr2]
        exact ih cs bs _ hcs hfr
      | some v =>
        cases v with
        | jobj fs =>
          have hfr1 : (flatRows md (line :: rest)).1
              = dumpsFlat (flattenJson md fs "" 0) :: (flatRows md rest).1 := by
            simp [flatRows, hne, hjl]
          have hfr2 : (flatRows md (line :: rest)).2 = (flatRows md rest).2 := by
            simp [flatRows, hne, hjl]
          rw [hfr2] at hfr
          by_cases hge : C ≤ cs.length + 1
          · have hstep : loadStepS md C alwaysOk ⟨cs, bs, ds⟩ line
                = (⟨[], bs ++ [cs ++ [dumpsFlat (flattenJson md fs "" 0)]], ds⟩, none) := by
              simp only [loadStepS]
              rw [if_neg hne, hjl]
              simp [hge, alwaysOk]
            rw [loadRun_cons_ok md C alwaysOk line rest _ _ hstep]
            obtain ⟨ih1, ih2⟩ := ih [] (bs ++ [cs ++ [dumpsFlat (flattenJson md fs "" 0)]]) ds
              (by simp only [List.length_nil]; omega) hfr
            refine ⟨ih1, ?_⟩
            have hlen2 : (cs ++ [dumpsFlat (flattenJson md fs "" 0)]).length = C := by
              simp
              omega
            have htake : List.take C ((cs ++ [dumpsFlat (flattenJson md fs "" 0)])
                ++ (flatRows md rest).1) = cs ++ [dumpsFlat (flattenJson md fs "" 0)] := by
              rw [← hlen2]
              exact List.take_left _ _
            have hdrop : List.drop C ((cs ++ [dumpsFlat (flattenJson md fs "" 0)])
                ++ (flatRows md rest).1) = (flatRows md rest).1 := by
              rw [← hlen2]
              exact List.drop_left _ _
            have hform : cs ++ dumpsFlat (flattenJson md fs "" 0) :: (flatRows md rest).1
                = (cs ++ [dumpsFlat (flattenJson md fs "" 0)]) ++ (flatRows md rest).1 := by
              simp
            have hsplit : chunksOf C (cs ++ (flatRows md (line :: rest)).1)
                = (cs ++ [dumpsFlat (flattenJson md fs "" 0)]) :: chunksOf C (flatRows md rest).1 := by
              rw [hfr1, hform, chunksOf_cons C hc _ (by simp), htake, hdrop]
            rw [ih2, hsplit]
            simp
          · have hstep : loadStepS md C alwaysOk ⟨cs, bs, ds⟩ line
                = (⟨cs ++ [dumpsFlat (flattenJson md fs "" 0)], bs, ds⟩, none) := by
              simp only [loadStepS]
              rw [if_neg hne, hjl]
              simp [hge]
            rw [loadRun_cons_ok md C alwaysOk line rest _ _ hstep]
            obtain ⟨ih1, ih2⟩ := ih (cs ++ [dumpsFlat (flattenJson md fs "" 0)]) bs ds
              (by simp; omega) hfr
            refine ⟨ih1, ?_⟩
            rw [ih2, hfr1]
            congr 1
            rw [List.append_assoc]
            rfl
        | jnull =>
          rw [show (flatRows md (line :: rest)).2 = some "AttributeError" by
            simp [flatRows, hne, hjl]] at hfr
          exact absurd hfr (by simp)
        | jbool b =>
          rw [show (flatRows md (line :: rest)).2 = some "AttributeError" by
            simp [flatRows, hne, hjl]] at hfr
          exact absurd hfr (by simp)
        | jint n =>
          rw [show (flatRows md (line :: rest)).2 = some "AttributeError" by
            simp [flatRows, hne, hjl]] at hfr
          exact absurd hfr (by simp)
        | jfloat lit =>
          rw [show (flatRows md (line :: rest)).2 = some "AttributeError" by
            simp [flatRows, hne, hjl]] at hfr
          exact absurd hfr (by simp)
        | jstr t =>
          rw [show (flatRows md (line :: rest)).2 = some "AttributeError" by
            simp [flatRows, hne, hjl]] at hfr
          exact absurd hfr (by simp)
        | jarr es =>
          rw [show (flatRows md (line :: rest)).2 = some "AttributeError" by
            simp [flatRows, hne, hjl]] at hfr
          exact absurd hfr (by simp)

/-- Claim C4: with chunk size `C ≥ 1`, on a run where every line is
handled (no uncaught exception), the sink receives exactly
`⌈N / C⌉` bulk-insert batches for the `N` successfully flattened
records: the batches are the consecutive `C`-groups of the row
sequence, none is empty, every batch but the last has size `C`, and
the last has size `N mod C` (or `C` when `C` divides `N`), the final
partial batch being flushed once at stream exhaustion. -/
theorem c4_batch_boundary (md : Option Nat) (C : Nat) (lines : List String)
    (hc : 1 ≤ C) (hfr : (flatRows md lines).2 = none) :
    (loadPassS md C alwaysOk lines).2 = none
    ∧ (loadPassS md C alwaysOk lines).1.batches = chunksOf C (flatRows md lines).1
    ∧ (loadPassS md C alwaysOk lines).1.batches.length
        = ((flatRows md lines).1.length + C - 1) / C
    ∧ (∀ b ∈ (loadPassS md C alwaysOk lines).1.batches, b ≠ [] ∧ b.length ≤ C)
    ∧ (∀ b ∈ (loadPassS md C alwaysOk lines).1.batches.dropLast, b.length = C)
    ∧ (∀ b, (loadPassS md C alwaysOk lines).1.batches.getLast? = some b →
        b.length = if (flatRows md lines).1.length % C = 0 then C
          else (flatRows md lines).1.length % C) := by
  obtain ⟨h1, h2⟩ := loadRun_chunks md C hc lines [] [] []
    (by simp only [List.length_nil]; omega) hfr
  have hb : (loadPassS md C alwaysOk lines).1.batches = chunksOf C (flatRows md lines).1 := by
    rw [show loadPassS md C alwaysOk lines = loadRun md C alwaysOk lines ⟨[], [], []⟩ from rfl, h2]
    simp
  refine ⟨h1, hb, ?_, ?_, ?_, ?_⟩
  · rw [hb]
    exact chunksOf_length C hc (flatRows md lines).1.length _ le_rfl
  · rw [hb]
    exact chunksOf_sizes C hc (flatRows md lines).1.length _ le_rfl
  · rw [hb]
    exact chunksOf_dropLast C hc (flatRows md lines).1.length _ le_rfl
  · rw [hb]
    exact chunksOf_getLast C hc (flatRows md lines).1.length _ le_rfl

/-- Witness for C4: three records with chunk size 2 give two batches
of sizes 2 and 1 = 3 mod 2. -/
theorem c4_batch_boundary_witness :
    (loadPassS none 2 alwaysOk ["\x7b\"a\": 1\x7d", "\x7b\"a\": 2\x7d", "\x7b\"a\": 3\x7d"]).1.batches.length
      = (3 + 2 - 1) / 2 := by
  have h := c4_batch_boundary none 2 ["\x7b\"a\": 1\x7d", "\x7b\"a\": 2\x7d", "\x7b\"a\": 3\x7d"]
    (by decide) (by rfl)
  have h3 := h.2.2.1
  have e : (flatRows none ["\x7b\"a\": 1\x7d", "\x7b\"a\": 2\x7d", "\x7b\"a\": 3\x7d"]).1.length = 3 := by rfl
  rw [e] at h3
  exact h3

/-- Exhaustive case analysis of one loading step: either it raises an
uncaught exception leaving the state unchanged, or it succeeds with a
result independent of the sink (batches only growing), or the sink
rejects the flushed chunk — the only point where a failing sink and
the always-accepting sink diverge. -/
theorem loadStepS_cases (md : Option Nat) (C : Nat) (sOk : List String → Bool)
    (st : LoadState) (line : String) :
    (∃ e, loadStepS md C sOk st line = (st, some e)
      ∧ loadStepS md C alwaysOk st line = (st, some e))
    ∨ (∃ st2, loadStepS md C sOk st line = (st2, none)
      ∧ loadStepS md C alwaysOk st line = (st2, none)
      ∧ st.batches <+: st2.batches)
    ∨ (∃ cs, sOk cs = false
      ∧ loadStepS md C sOk st line = (⟨cs, st.batches, st.diags⟩, some "SinkError")
      ∧ loadStepS md C alwaysOk st line = (⟨[], st.batches ++ [cs], st.diags⟩, none)) := by
  by_cases hne : line = ""
  · exact Or.inl ⟨"IndexError", by simp [loadStepS, hne], by simp [loadStepS, hne]⟩
  · cases hjl : jsonLoads (firstCsvField line) with
    | none =>
      refine Or.inr (Or.inl ⟨⟨st.chunks, st.batches,
        st.diags ++ ["Invalid JSON: " ++ (firstCsvField line).take 100 ++ "..."]⟩, ?_, ?_, ?_⟩)
      · simp [loadStepS, hne, hjl]
      · simp [loadStepS, hne, hjl]
      · exact List.prefix_rfl
    | some v =>
      cases v with
      | jobj fs =>
        by_cases hge : C ≤ st.chunks.length + 1
        · by_cases hok : sOk (st.chunks ++ [dumpsFlat (flattenJson md fs "" 0)]) = true
          · refine Or.inr (Or.inl ⟨⟨[],
              st.batches ++ [st.chunks ++ [dumpsFlat (flattenJson md fs "" 0)]], st.diags⟩, ?_, ?_, ?_⟩)
            · simp [loadStepS, hne, hjl, hge, hok]
            · simp [loadStepS, hne, hjl, hge, alwaysOk]
            · exact List.prefix_append _ _
          · refine Or.inr (Or.inr ⟨st.chunks ++ [dumpsFlat (flattenJson md fs "" 0)],
              by simpa using hok, ?_, ?_⟩)
            · simp [loadStepS, hne, hjl, hge, hok]
            · simp [loadStepS, hne, hjl, hge, alwaysOk]
        · refine Or.inr (Or.inl ⟨⟨st.chunks ++ [dumpsFlat (flattenJson md fs "" 0)],
            st.batches, st.diags⟩, ?_, ?_, ?_⟩)
          · simp [loadStepS, hne, hjl, hge]
          · simp [loadStepS, hne, hjl, hge]
          · exact List.prefix_rfl
      | jnull =>
        exact Or.inl ⟨"AttributeError", by simp [loadStepS, hne, hjl], by simp [loadStepS, hne, hjl]⟩
      | jbool b =>
        exact Or.inl ⟨"AttributeError", by simp [loadStepS, hne, hjl], by simp [loadStepS, hne, hjl]⟩
      | jint n =>
        exact Or.inl ⟨"AttributeError", by simp [loadStepS, hne, hjl], by simp [loadStepS, hne, hjl]⟩
      | jfloat lit =>
        exact Or.inl ⟨"AttributeError", by simp [loadStepS, hne, hjl], by simp [loadStepS, hne, hjl]⟩
      | jstr t =>
        exact Or.inl ⟨"AttributeError", by simp [loadStepS, hne, hjl], by simp [loadStepS, hne, hjl]⟩
      | jarr es =>
        exact Or.inl ⟨"AttributeError", by simp [loadStepS, hne, hjl], by simp [loadStepS, hne, hjl]⟩

/-- One loading step never removes flushed batches. -/
theorem loadStepS_batches_mono (md : Option Nat) (C : Nat) (sOk : List String → Bool)
    (st : LoadState) (line : String) :
    st.batches <+: (loadStepS md C sOk st line).1.batches := by
  rcases loadStepS_cases md C sOk st line with ⟨e, h, _⟩ | ⟨st2, h, _, hp⟩ | ⟨cs, _, h, _⟩
  · rw [h]
  · rw [h]
    exact hp
  · rw [h]

/-- A failing loading step leaves the flushed batches untouched. -/
theorem loadStepS_err_batches (md : Option Nat) (C : Nat) (sOk : List String → Bool)
    (st st2 : LoadState) (line : String) (e : String)
    (h : loadStepS md C sOk st line = (st2, some e)) : st2.batches = st.batches := by
  rcases loadStepS_cases md C sOk st line with ⟨e2, h2, _⟩ | ⟨st3, h2, _, _⟩ | ⟨cs, _, h2, _⟩
  · rw [h2] at h
    injection h with h3 _
    rw [← h3]
  · rw [h2] at h
    injection h with _ h4
    exact absurd h4 (by simp)
  · rw [h2] at h
    injection h with h3 _
    rw [← h3]

/-- A loading step that succeeds under some sink also succeeds, with
the same result, under the always-accepting sink. -/
theorem loadStepS_ok_eq (md : Option Nat) (C : Nat) (sOk : List String → Bool)
    (st st2 : LoadState) (line : String)
    (h : loadStepS md C sOk st line = (st2, none)) :
    loadStepS md C alwaysOk st line = (st2, none) := by
  rcases loadStepS_cases md C sOk st line with ⟨e2, h2, h3⟩ | ⟨st3, h2, h3, _⟩ | ⟨cs, _, h2, _⟩
  · rw [h2] at h
    injection h with _ h4
    exact absurd h4 (by simp)
  · rw [h2] at h
    injection h with h4 _
    rw [h4] at h3
    exact h3
  · rw [h2] at h
    injection h with _ h4
    exact absurd h4 (by simp)

/-- The loading loop only ever appends to the flushed batches. -/
theorem loadLoopS_batches_mono (md : Option Nat) (C : Nat) (sOk : List String → Bool) :
    ∀ (lines : List String) (st : LoadState),
      st.batches <+: (loadLoopS md C sOk lines st).1.batches := by
  intro lines
  induction lines with
  | nil => intro st; exact List.prefix_rfl
  | cons line rest ih =>
    intro st
    rcases hstep : loadStepS md C sOk st line with ⟨st2, e⟩
    have h1 : st.batches <+: st2.batches := by
      have h2 := loadStepS_batches_mono md C sOk st line
      rw [hstep] at h2
      exact h2
    cases e with
    | some err =>
      rw [show loadLoopS md C sOk (line :: rest) st = (st2, some err) by
        simp [loadLoopS, hstep]]
      exact h1
    | none =>
      rw [show loadLoopS md C sOk (line :: rest) st = loadLoopS md C sOk rest st2 by
        simp [loadLoopS, hstep]]
      exact h1.trans (ih st2)

/-- The drain step only ever appends to the flushed batches. -/
theorem loadRun_batches_mono (md : Option Nat) (C : Nat) (sOk : List String → Bool)
    (lines : List String) (st : LoadState) :
    st.batches <+: (loadRun md C sOk lines st).1.batches := by
  rcases hloop : loadLoopS md C sOk lines st with ⟨st2, e⟩
  have h1 : st.batches <+: st2.batches := by
    have h2 := loadLoopS_batches_mono md C sOk lines st
    rw [hloop] at h2
    exact h2
  cases e with
  | some err =>
    rw [show loadRun md C sOk lines st = (st2, some err) by simp [loadRun, hloop]]
    exact h1
  | none =>
    by_cases hch : st2.chunks = []
    · rw [show loadRun md C sOk lines st = (st2, none) by simp [loadRun, hloop, hch]]
      exact h1
    · by_cases hok : sOk st2.chunks = true
      · rw [show loadRun md C sOk lines st
            = (⟨[], st2.batches ++ [st2.chunks], st2.diags⟩, none) by
          simp [loadRun, hloop, hch, hok]]
        exact h1.trans (List.prefix_append _ _)
      · rw [show loadRun md C sOk lines st = (st2, some "SinkError") by
          simp [loadRun, hloop, hch, hok]]
        exact h1

/-- A loading loop that finishes without an exception behaves exactly
as under the always-accepting sink (every flush it attempted was
accepted). -/
theorem loadLoopS_ok_eq (md : Option Nat) (C : Nat) (sOk : List String → Bool) :
    ∀ (lines : List String) (st : LoadState),
      (loadLoopS md C sOk lines st).2 = none →
      loadLoopS md C sOk lines st = loadLoopS md C alwaysOk lines st := by
  intro lines
  induction lines with
  | nil => intro st _; rfl
  | cons line rest ih =>
    intro st h
    rcases hstep : loadStepS md C sOk st line with ⟨st2, e⟩
    cases e with
    | some err =>
      rw [show loadLoopS md C sOk (line :: rest) st = (st2, some err) by
        simp [loadLoopS, hstep]] at h
      exact absurd h (by simp)
    | none =>
      have hstep2 := loadStepS_ok_eq md C sOk st st2 line hstep
      have hl : loadLoopS md C sOk (line :: rest) st = loadLoopS md C sOk rest st2 := by
        simp [loadLoopS, hstep]
      have hl2 : loadLoopS md C alwaysOk (line :: rest) st = loadLoopS md C alwaysOk rest st2 := by
        simp [loadLoopS, hstep2]
      rw [hl, hl2]
      exact ih st2 (by rw [← hl]; exact h)

/-- When the loading loop aborts, the batches flushed so far form a
prefix of what the always-accepting run flushes. -/
theorem loadLoopS_fail_committed (md : Option Nat) (C : Nat) (sOk : List String → Bool) :
    ∀ (lines : List String) (st st2 : LoadState) (e : String),
      loadLoopS md C sOk lines st = (st2, some e) →
      st2.batches <+: (loadLoopS md C alwaysOk lines st).1.batches := by
  intro lines
  induction lines with
  | nil =>
    intro st st2 e h
    injection h with _ h2
    exact absurd h2 (by simp)
  | cons line rest ih =>
    intro st st2 e h
    rcases hstep : loadStepS md C sOk st line with ⟨st3, e3⟩
    cases e3 with
    | none =>
      have hstep2 := loadStepS_ok_eq md C sOk st st3 line hstep
      have hl : loadLoopS md C sOk (line :: rest) st = loadLoopS md C sOk rest st3 := by
        simp [loadLoopS, hstep]
      have hl2 : loadLoopS md C alwaysOk (line :: rest) st = loadLoopS md C alwaysOk rest st3 := by
        simp [loadLoopS, hstep2]
      rw [hl] at h
      rw [hl2]
      exact ih st3 st2 e h
    | some err =>
      rw [show loadLoopS md C sOk (line :: rest) st = (st3, some err) by
        simp [loadLoopS, hstep]] at h
      injection h with h1 _
      have hb : st3.batches = st.batches :=
        loadStepS_err_batches md C sOk st st3 line err hstep
      rw [← h1, hb]
      exact loadLoopS_batches_mono md C alwaysOk (line :: rest) st

/-- When the loading phase aborts (uncaught exception or rejected
batch), the batches flushed before the failure form a prefix of the
batches a fully successful run flushes. -/
theorem loadRun_fail_committed (md : Option Nat) (C : Nat) (sOk : List String → Bool)
    (lines : List String) (st0 st2 : LoadState) (e : String)
    (h : loadRun md C sOk lines st0 = (st2, some e)) :
    st2.batches <+: (loadRun md C alwaysOk lines st0).1.batches := by
  rcases hloop : loadLoopS md C sOk lines st0 with ⟨stL, eL⟩
  cases eL with
  | some err =>
    rw [show loadRun md C sOk lines st0 = (stL, some err) by simp [loadRun, hloop]] at h
    injection h with h1 _
    rw [← h1]
    have hp1 := loadLoopS_fail_committed md C sOk lines st0 stL err hloop
    rcases hloop2 : loadLoopS md C alwaysOk lines st0 with ⟨stA, eA⟩
    rw [hloop2] at hp1
    cases eA with
    | some errA =>
      rw [show loadRun md C alwaysOk lines st0 = (stA, some errA) by simp [loadRun, hloop2]]
      exact hp1
    | none =>
      by_cases hch : stA.chunks = []
      · rw [show loadRun md C alwaysOk lines st0 = (stA, none) by simp [loadRun, hloop2, hch]]
        exact hp1
      · rw [show loadRun md C alwaysOk lines st0
            = (⟨[], stA.batches ++ [stA.chunks], stA.diags⟩, none) by
          simp [loadRun, hloop2, hch, alwaysOk]]
        exact hp1.trans (List.prefix_append _ _)
  | none =>
    have hloop2 : loadLoopS md C alwaysOk lines st0 = (stL, none) := by
      rw [← loadLoopS_ok_eq md C sOk lines st0 (by rw [hloop]), hloop]
    by_cases hch : stL.chunks = []
    · rw [show loadRun md C sOk lines st0 = (stL, none) by simp [loadRun, hloop, hch]] at h
      injection h with _ h2
      exact absurd h2 (by simp)
    · by_cases hok : sOk stL.chunks = true
      · rw [show loadRun md C sOk lines st0
            = (⟨[], stL.batches ++ [stL.chunks], stL.diags⟩, none) by
          simp [loadRun, hloop, hch, hok]] at h
        injection h with _ h2
        exact absurd h2 (by simp)
      · rw [show loadRun md C sOk lines st0 = (stL, some "SinkError") by
          simp [loadRun, hloop, hch, hok]] at h
        injection h with h1 _
        rw [← h1]
        rw [show loadRun md C alwaysOk lines st0
            = (⟨[], stL.batches ++ [stL.chunks], stL.diags⟩, none) by
          simp [loadRun, hloop2, hch, alwaysOk]]
        exact List.prefix_append _ _

/-- When the tail list ends in a value, so does the whole append. -/
theorem getLast?_append_some (l m : List String) (b : String) (h : m.getLast? = some b) :
    (l ++ m).getLast? = some b := by
  rw [List.getLast?_append, h]
  rfl

/-- Every run of the driver ends its log with the completion signal. -/
theorem mainModel_shape (md : Option Nat) (C : Nat) (sinkOk : List String → Bool)
    (lines : List String) (fields : List String) :
    ∃ l : List String,
      mainModel md C sinkOk lines fields = l ++ ["Processing complete."] := by
  cases herr : (inferRun md 1000 lines).err with
  | some e =>
    exact ⟨(inferRun md 1000 lines).diags ++ ["An error occurred: " ++ e],
      by simp [mainModel, herr]⟩
  | none =>
    rcases hload : loadPassS md C sinkOk lines with ⟨st, eld⟩
    cases eld with
    | some e =>
      exact ⟨(inferRun md 1000 lines).diags ++ st.diags ++ ["An error occurred: " ++ e],
        by simp [mainModel, herr, hload]⟩
    | none =>
      exact ⟨(inferRun md 1000 lines).diags ++ st.diags ++ (inferRun md 1000 lines).diags
        ++ (if fields = [] then keysOf (inferRun md 1000 lines).schema else fields).map
            (fun f => "Generated report for field: " ++ f),
        by simp [mainModel, herr, hload]⟩

/-- Claim C9 amended: the `Processing complete.` signal is emitted at
the end of every (non-dry) run, success or failure, because it is
logged after the `try`/`except`/`finally` block; on a loading failure
(including a sink rejection) the error is reported, the remaining work
(subsequent batches and reports) is aborted, and the batches flushed
before the failure remain committed — they form a prefix of what a
fully successful run flushes. -/
theorem c9_completion_signal_amended (md : Option Nat) (C : Nat) (sinkOk : List String → Bool)
    (lines : List String) (fields : List String) :
    (mainModel md C sinkOk lines fields).getLast? = some "Processing complete."
    ∧ (∀ st e, (inferRun md 1000 lines).err = none →
        loadPassS md C sinkOk lines = (st, some e) →
        st.batches <+: (loadPassS md C alwaysOk lines).1.batches
        ∧ mainModel md C sinkOk lines fields
            = (inferRun md 1000 lines).diags ++ st.diags
              ++ ["An error occurred: " ++ e, "Processing complete."]) := by
  constructor
  · obtain ⟨l, hl⟩ := mainModel_shape md C sinkOk lines fields
    rw [hl, List.getLast?_append]
    rfl
  · intro st e herr hload
    constructor
    · exact loadRun_fail_committed md C sinkOk lines ⟨[], [], []⟩ st e hload
    · simp [mainModel, herr, hload]

/-- Witness for the amended C9: a one-record run with chunk size 1
whose sink rejects every batch. -/
theorem c9_completion_signal_amended_witness :
    (⟨["\x7b\"a\": 1\x7d"], [], []⟩ : LoadState).batches
        <+: (loadPassS none 1 alwaysOk ["\x7b\"a\": 1\x7d"]).1.batches
    ∧ mainModel none 1 (fun _ => false) ["\x7b\"a\": 1\x7d"] []
        = (inferRun none 1000 ["\x7b\"a\": 1\x7d"]).diags
          ++ (⟨["\x7b\"a\": 1\x7d"], [], []⟩ : LoadState).diags
          ++ ["An error occurred: SinkError", "Processing complete."] :=
  (c9_completion_signal_amended none 1 (fun _ => false) ["\x7b\"a\": 1\x7d"] []).2
    ⟨["\x7b\"a\": 1\x7d"], [], []⟩ "SinkError" (by rfl) (by rfl)

/-- Counterexample to C2 as stated: for the in-sample record
`{"a": [{"b": 1}]}` — an array whose first element is an object —
inference records only the path `a.b` (sampling the array's first
element), while flattening emits the path `a` (serializing the array
whole), so the flat record holds a path the resolved schema lacks. -/
theorem c2_flat_paths_counterexample :
    jsonLoads "\x7b\"a\": [\x7b\"b\": 1\x7d]\x7d"
      = some (.jobj (.fcons "a" (.jarr (.cons (.jobj (.fcons "b" (.jint 1) .fnil)) .nil)) .fnil))
    ∧ (inferRun none 1000 ["\x7b\"a\": [\x7b\"b\": 1\x7d]\x7d"]).schema = [("a.b", ["int"])]
    ∧ flattenJson none (.fcons "a" (.jarr (.cons (.jobj (.fcons "b" (.jint 1) .fnil)) .nil)) .fnil) "" 0
      = [("a", .jstr "[\x7b\"b\": 1\x7d]")]
    ∧ "a" ∈ keysOf (flattenJson none
        (.fcons "a" (.jarr (.cons (.jobj (.fcons "b" (.jint 1) .fnil)) .nil)) .fnil) "" 0)
    ∧ ¬ "a" ∈ keysOf (inferRun none 1000 ["\x7b\"a\": [\x7b\"b\": 1\x7d]\x7d"]).schema :=
  ⟨rfl, rfl, rfl, by decide, by decide⟩

/-- Key membership after recording one kind: the recorded path joins
the key set, nothing else changes. -/
theorem mem_keysOf_schemaAdd (s : Schema) (path kind p : String) :
    p ∈ keysOf (schemaAdd s path kind) ↔ p ∈ keysOf s ∨ p = path := by
  unfold schemaAdd
  by_cases h : s.any (fun q => q.1 = path) = true
  · rw [if_pos h]
    have hmem : path ∈ keysOf s := by
      simp only [List.any_eq_true, decide_eq_true_eq] at h
      obtain ⟨q, hq1, hq2⟩ := h
      exact List.mem_map.2 ⟨q, hq1, hq2⟩
    have hkeys : keysOf (s.map (fun q =>
        if q.1 = path then (q.1, if q.2.contains kind then q.2 else q.2 ++ [kind]) else q))
        = keysOf s := by
      unfold keysOf
      rw [List.map_map]
      exact List.map_congr_left (fun q _ => by
        by_cases hq : q.1 = path <;> simp [Function.comp, hq])
    rw [hkeys]
    constructor
    · exact Or.inl
    · rintro (hp | hp)
      · exact hp
      · rw [hp]
        exact hmem
  · rw [if_neg h]
    unfold keysOf
    rw [List.map_append]
    simp

/-- Key membership after a dict store: the stored key joins the key
set, nothing else changes. -/
theorem mem_keysOf_dictSet (m : FlatRec) (k : String) (v : JVal) (p : String) :
    p ∈ keysOf (dictSet m k v) ↔ p ∈ keysOf m ∨ p = k := by
  unfold dictSet
  by_cases h : m.any (fun q => q.1 = k) = true
  · rw [if_pos h]
    have hmem : k ∈ keysOf m := by
      simp only [List.any_eq_true, decide_eq_true_eq] at h
      obtain ⟨q, hq1, hq2⟩ := h
      exact List.mem_map.2 ⟨q, hq1, hq2⟩
    have hkeys : keysOf (m.map (fun q => if q.1 = k then (q.1, v) else q)) = keysOf m := by
      unfold keysOf
      rw [List.map_map]
      exact List.map_congr_left (fun q _ => by
        by_cases hq : q.1 = k <;> simp [Function.comp, hq])
    rw [hkeys]
    constructor
    · exact Or.inl
    · rintro (hp | hp)
      · exact hp
      · rw [hp]
        exact hmem
  · rw [if_neg h]
    unfold keysOf
    rw [List.map_append]
    simp

/-- Key membership after a dict merge: the union of the key sets. -/
theorem mem_keysOf_dictUpdate (adds : FlatRec) :
    ∀ (m : FlatRec) (p : String),
      p ∈ keysOf (dictUpdate m adds) ↔ p ∈ keysOf m ∨ p ∈ keysOf adds := by
  induction adds with
  | nil =>
    intro m p
    simp [dictUpdate, keysOf]
  | cons kv rest ih =>
    intro m p
    rw [show dictUpdate m (kv :: rest) = dictUpdate (dictSet m kv.1 kv.2) rest from rfl,
      ih (dictSet m kv.1 kv.2) p, mem_keysOf_dictSet]
    simp only [keysOf, List.map_cons, List.mem_cons]
    tauto

mutual

/-- The inference loop over an object's fields never removes schema
keys. -/
theorem processLoop_keys_mono (md : Option Nat) (fs : JFields) (pfx : String) (depth : Nat)
    (s : Schema) (p : String) (hp : p ∈ keysOf s) :
    p ∈ keysOf (processLoop md fs pfx depth s) := by
  cases fs with
  | fnil => exact hp
  | fcons k v rest =>
    exact processLoop_keys_mono md rest pfx depth (processValue md v (pfx ++ k) depth s) p
      (processValue_keys_mono md v (pfx ++ k) depth s p hp)

/-- Walking one field's value never removes schema keys. -/
theorem processValue_keys_mono (md : Option Nat) (v : JVal) (fullKey : String) (depth : Nat)
    (s : Schema) (p : String) (hp : p ∈ keysOf s) :
    p ∈ keysOf (processValue md v fullKey depth s) := by
  cases v with
  | jobj fs =>
    show p ∈ keysOf (if stopAt md (depth + 1) = true then s
      else processLoop md fs (fullKey ++ ".") (depth + 1) s)
    split
    · exact hp
    · exact processLoop_keys_mono md fs (fullKey ++ ".") (depth + 1) s p hp
  | jarr es =>
    cases es with
    | nil => exact (mem_keysOf_schemaAdd s fullKey "array" p).2 (Or.inl hp)
    | cons v0 rest =>
      cases v0 with
      | jobj fs =>
        show p ∈ keysOf (if stopAt md (depth + 1) = true then s
          else processLoop md fs (fullKey ++ ".") (depth + 1) s)
        split
        · exact hp
        · exact processLoop_keys_mono md fs (fullKey ++ ".") (depth + 1) s p hp
      | jnull => exact (mem_keysOf_schemaAdd s fullKey "array" p).2 (Or.inl hp)
      | jbool b => exact (mem_keysOf_schemaAdd s fullKey "array" p).2 (Or.inl hp)
      | jint n => exact (mem_keysOf_schemaAdd s fullKey "array" p).2 (Or.inl hp)
      | jfloat lit => exact (mem_keysOf_schemaAdd s fullKey "array" p).2 (Or.inl hp)
      | jstr t => exact (mem_keysOf_schemaAdd s fullKey "array" p).2 (Or.inl hp)
      | jarr es2 => exact (mem_keysOf_schemaAdd s fullKey "array" p).2 (Or.inl hp)
  | jnull => exact (mem_keysOf_schemaAdd s fullKey "NoneType" p).2 (Or.inl hp)
  | jbool b => exact (mem_keysOf_schemaAdd s fullKey "bool" p).2 (Or.inl hp)
  | jint n => exact (mem_keysOf_schemaAdd s fullKey "int" p).2 (Or.inl hp)
  | jfloat lit => exact (mem_keysOf_schemaAdd s fullKey "float" p).2 (Or.inl hp)
  | jstr t => exact (mem_keysOf_schemaAdd s fullKey "str" p).2 (Or.inl hp)

end

mutual

/-- With no depth limit, every path flattening would emit for an
object's fields is recorded by the inference walk over those fields,
provided no array in the record has an object first element. -/
theorem pathsFields_sub_keys (fs : JFields) (pfx : String) (depth : Nat) (s : Schema)
    (hok : fieldsOkB fs = true) (p : String) (hp : p ∈ pathsFields fs pfx) :
    p ∈ keysOf (processLoop none fs pfx depth s) := by
  cases fs with
  | fnil => exact absurd hp (List.not_mem_nil p)
  | fcons k v rest =>
    have hok2 : valOkB v = true ∧ fieldsOkB rest = true := by
      have h := hok
      rw [show fieldsOkB (.fcons k v rest) = (valOkB v && fieldsOkB rest) from rfl,
        Bool.and_eq_true] at h
      exact h
    rcases List.mem_append.1 hp with hp1 | hp2
    · exact processLoop_keys_mono none rest pfx depth (processValue none v (pfx ++ k) depth s) p
        (pathsVal_sub_keys v (pfx ++ k) depth s hok2.1 p hp1)
    · exact pathsFields_sub_keys rest pfx depth (processValue none v (pfx ++ k) depth s) hok2.2 p hp2

/-- With no depth limit, the paths flattening would emit for one value
are recorded by the inference walk of that value, provided no array in
it has an object first element. -/
theorem pathsVal_sub_keys (v : JVal) (fullKey : String) (depth : Nat) (s : Schema)
    (hok : valOkB v = true) (p : String) (hp : p ∈ pathsVal v fullKey) :
    p ∈ keysOf (processValue none v fullKey depth s) := by
  cases v with
  | jobj fs => exact pathsFields_sub_keys fs (fullKey ++ ".") (depth + 1) s hok p hp
  | jarr es =>
    cases es with
    | nil =>
      have hpe : p = fullKey := List.mem_singleton.1 hp
      rw [hpe]
      exact (mem_keysOf_schemaAdd s fullKey "array" fullKey).2 (Or.inr rfl)
    | cons v0 rest =>
      cases v0 with
      | jobj fs => exact absurd hok (by rw [show valOkB (.jarr (.cons (.jobj fs) rest)) = false from rfl]; simp)
      | jnull =>
        have hpe : p = fullKey := List.mem_singleton.1 hp
        rw [hpe]
        exact (mem_keysOf_schemaAdd s fullKey "array" fullKey).2 (Or.inr rfl)
      | jbool b =>
        have hpe : p = fullKey := List.mem_singleton.1 hp
        rw [hpe]
        exact (mem_keysOf_schemaAdd s fullKey "array" fullKey).2 (Or.inr rfl)
      | jint n =>
        have hpe : p = fullKey := List.mem_singleton.1 hp
        rw [hpe]
        exact (mem_keysOf_schemaAdd s fullKey "array" fullKey).2 (Or.inr rfl)
      | jfloat lit =>
        have hpe : p = fullKey := List.mem_singleton.1 hp
        rw [hpe]
        exact (mem_keysOf_schemaAdd s fullKey "array" fullKey).2 (Or.inr rfl)
      | jstr t =>
        have hpe : p = fullKey := List.mem_singleton.1 hp
        rw [hpe]
        exact (mem_keysOf_schemaAdd s fullKey "array" fullKey).2 (Or.inr rfl)
      | jarr es2 =>
        have hpe : p = fullKey := List.mem_singleton.1 hp
        rw [hpe]
        exact (mem_keysOf_schemaAdd s fullKey "array" fullKey).2 (Or.inr rfl)
  | jnull =>
    have hpe : p = fullKey := List.mem_singleton.1 hp
    rw [hpe]
    exact (mem_keysOf_schemaAdd s fullKey "NoneType" fullKey).2 (Or.inr rfl)
  | jbool b =>
    have hpe : p = fullKey := List.mem_singleton.1 hp
    rw [hpe]
    exact (mem_keysOf_schemaAdd s fullKey "bool" fullKey).2 (Or.inr rfl)
  | jint n =>
    have hpe : p = fullKey := List.mem_singleton.1 hp
    rw [hpe]
    exact (mem_keysOf_schemaAdd s fullKey "int" fullKey).2 (Or.inr rfl)
  | jfloat lit =>
    have hpe : p = fullKey := List.mem_singleton.1 hp
    rw [hpe]
    exact (mem_keysOf_schemaAdd s fullKey "float" fullKey).2 (Or.inr rfl)
  | jstr t =>
    have hpe : p = fullKey := List.mem_singleton.1 hp
    rw [hpe]
    exact (mem_keysOf_schemaAdd s fullKey "str" fullKey).2 (Or.inr rfl)

end

mutual

/-- With no depth limit, the keys produced by the flattening loop are
the accumulator's keys together with the fields' flattening paths. -/
theorem flattenLoop_keys (fs : JFields) (pfx : String) (depth : Nat) (acc : FlatRec) (p : String) :
    p ∈ keysOf (flattenLoop none fs pfx depth acc)
      ↔ p ∈ keysOf acc ∨ p ∈ pathsFields fs pfx := by
  cases fs with
  | fnil =>
    show p ∈ keysOf acc ↔ p ∈ keysOf acc ∨ p ∈ ([] : List String)
    simp
  | fcons k v rest =>
    show p ∈ keysOf (flattenLoop none rest pfx depth (flattenValue none v (pfx ++ k) depth acc))
      ↔ p ∈ keysOf acc ∨ p ∈ pathsVal v (pfx ++ k) ++ pathsFields rest pfx
    rw [flattenLoop_keys rest pfx depth (flattenValue none v (pfx ++ k) depth acc) p,
      flattenValue_keys v (pfx ++ k) depth acc p, List.mem_append]
    tauto

/-- With no depth limit, the keys produced by flattening one value are
the accumulator's keys together with the value's flattening paths. -/
theorem flattenValue_keys (v : JVal) (fullKey : String) (depth : Nat) (acc : FlatRec) (p : String) :
    p ∈ keysOf (flattenValue none v fullKey depth acc)
      ↔ p ∈ keysOf acc ∨ p ∈ pathsVal v fullKey := by
  cases v with
  | jobj fs =>
    show p ∈ keysOf (dictUpdate acc (flattenLoop none fs (fullKey ++ ".") (depth + 1) []))
      ↔ p ∈ keysOf acc ∨ p ∈ pathsFields fs (fullKey ++ ".")
    rw [mem_keysOf_dictUpdate, flattenLoop_keys fs (fullKey ++ ".") (depth + 1) [] p]
    have hnil : ¬ p ∈ keysOf ([] : FlatRec) := List.not_mem_nil p
    tauto
  | jarr es =>
    show p ∈ keysOf (dictSet acc fullKey (.jstr (jsonDumps (.jarr es))))
      ↔ p ∈ keysOf acc ∨ p ∈ [fullKey]
    rw [mem_keysOf_dictSet, List.mem_singleton]
  | jnull =>
    show p ∈ keysOf (dictSet acc fullKey .jnull) ↔ p ∈ keysOf acc ∨ p ∈ [fullKey]
    rw [mem_keysOf_dictSet, List.mem_singleton]
  | jbool b =>
    show p ∈ keysOf (dictSet acc fullKey (.jbool b)) ↔ p ∈ keysOf acc ∨ p ∈ [fullKey]
    rw [mem_keysOf_dictSet, List.mem_singleton]
  | jint n =>
    show p ∈ keysOf (dictSet acc fullKey (.jint n)) ↔ p ∈ keysOf acc ∨ p ∈ [fullKey]
    rw [mem_keysOf_dictSet, List.mem_singleton]
  | jfloat lit =>
    show p ∈ keysOf (dictSet acc fullKey (.jfloat lit)) ↔ p ∈ keysOf acc ∨ p ∈ [fullKey]
    rw [mem_keysOf_dictSet, List.mem_singleton]
  | jstr t =>
    show p ∈ keysOf (dictSet acc fullKey (.jstr t)) ↔ p ∈ keysOf acc ∨ p ∈ [fullKey]
    rw [mem_keysOf_dictSet, List.mem_singleton]

end

/-- The inference loop never removes schema keys. -/
theorem inferLoop_keys_mono (md : Option Nat) (S : Nat) :
    ∀ (lines : List String) (i : Nat) (s : Schema) (ds : List String) (p : String),
      p ∈ keysOf s → p ∈ keysOf (inferLoop md S lines i s ds).schema := by
  intro lines
  induction lines with
  | nil => intro i s ds p hp; exact hp
  | cons line rest ih =>
    intro i s ds p hp
    by_cases h : i ≥ S
    · simp only [inferLoop]
      rw [if_pos h]
      exact hp
    · simp only [inferLoop]
      rw [if_neg h]
      cases hjl : jsonLoads line with
      | none => exact ih (i + 1) s _ p hp
      | some v =>
        cases v with
        | jobj fs =>
          apply ih (i + 1) (processItem md fs "" 0 s) ds p
          show p ∈ keysOf (if stopAt md 0 = true then s else processLoop md fs "" 0 s)
          split
          · exact hp
          · exact processLoop_keys_mono md fs "" 0 s p hp
        | jnull => exact hp
        | jbool b => exact hp
        | jint n => exact hp
        | jfloat lit => exact hp
        | jstr t => exact hp
        | jarr es => exact hp

/-- If line `j` of the stream, within the sampling window, parses to
an object free of arrays-with-object-first-element, and the loop runs
to completion, then every flattening path of that object is a key of
the final schema. -/
theorem inferLoop_paths (S : Nat) :
    ∀ (lines : List String) (i : Nat) (s : Schema) (ds : List String)
      (j : Nat) (line : String) (fs : JFields),
      lines[j]? = some line → i + j < S →
      jsonLoads line = some (.jobj fs) → fieldsOkB fs = true →
      (inferLoop none S lines i s ds).err = none →
      ∀ p ∈ pathsFields fs "", p ∈ keysOf (inferLoop none S lines i s ds).schema := by
  intro lines
  induction lines with
  | nil =>
    intro i s ds j line fs hj
    exact absurd hj (by simp)
  | cons line0 rest ih =>
    intro i s ds j line fs hj hij hjson hok herr p hp
    have hiS : ¬ i ≥ S := by omega
    cases j with
    | zero =>
      have hline : line0 = line := by simpa using hj
      subst hline
      simp only [inferLoop] at herr ⊢
      rw [if_neg hiS] at herr ⊢
      rw [hjson] at herr ⊢
      apply inferLoop_keys_mono none S rest (i + 1) (processItem none fs "" 0 s) ds p
      exact pathsFields_sub_keys fs "" 0 s hok p hp
    | succ j2 =>
      have hj2 : rest[j2]? = some line := by simpa using hj
      simp only [inferLoop] at herr ⊢
      rw [if_neg hiS] at herr ⊢
      cases hjl : jsonLoads line0 with
      | none =>
        rw [hjl] at herr
        exact ih (i + 1) s _ j2 line fs hj2 (by omega) hjson hok herr p hp
      | some v =>
        rw [hjl] at herr
        cases v with
        | jobj fs0 =>
          exact ih (i + 1) (processItem none fs0 "" 0 s) ds j2 line fs hj2 (by omega)
            hjson hok herr p hp
        | jnull => exact Option.noConfusion herr
        | jbool b => exact Option.noConfusion herr
        | jint n => exact Option.noConfusion herr
        | jfloat lit => exact Option.noConfusion herr
        | jstr t => exact Option.noConfusion herr
        | jarr es => exact Option.noConfusion herr

/-- Claim C2 amended: for a record parsed (from line `j` within the
sampling window of a run whose inference pass completes) into an
object containing no array whose first element is an object, and with
`max_depth` unset, every path of the flattened record is a path of the
inferred schema.  The invariant fails precisely for arrays whose first
element is an object (see the counterexample): there flattening emits
the array's own path while inference records only paths inside the
first element. -/
theorem c2_flat_paths_amended (S : Nat) (lines : List String) (j : Nat) (line : String)
    (fs : JFields) (hj : lines[j]? = some line) (hjS : j < S)
    (hjson : jsonLoads line = some (.jobj fs)) (hok : fieldsOkB fs = true)
    (herr : (inferRun none S lines).err = none) :
    ∀ p ∈ keysOf (flattenJson none fs "" 0), p ∈ keysOf (inferRun none S lines).schema := by
  intro p hp
  have hp2 : p ∈ keysOf ([] : FlatRec) ∨ p ∈ pathsFields fs "" :=
    (flattenLoop_keys fs "" 0 [] p).1 hp
  have hpaths : p ∈ pathsFields fs "" := by
    rcases hp2 with h1 | h2
    · exact absurd h1 (List.not_mem_nil p)
    · exact h2
  exact inferLoop_paths S lines 0 [] [] j line fs hj (by omega) hjson hok herr p hpaths

/-- Witness for the amended C2 at the single-line stream
`{"a": 1}`: the flattened path `a` is a schema key. -/
theorem c2_flat_paths_amended_witness :
    "a" ∈ keysOf (inferRun none 1000 ["\x7b\"a\": 1\x7d"]).schema :=
  c2_flat_paths_amended 1000 ["\x7b\"a\": 1\x7d"] 0 "\x7b\"a\": 1\x7d"
    (.fcons "a" (.jint 1) .fnil) (by rfl) (by decide) (by rfl) (by rfl) (by rfl)
    "a" (by decide)
